import Mathlib

/-!
# HormuzLang: the Persian C to raw C transpiler (`hormuz.c`)

A shallow embedding of the lexer (`lex_all_to_array` and its helpers) and of the
generator (`generate_raw_c`), followed by theorems about them.

Conventions of the embedding:

* a byte (`char`, read through `unsigned char`) is a `Nat`; the UTF-8 text of the
  tables is written out byte by byte;
* the input buffer is a `List Nat`; it is NUL-terminated in C, so reading at or
  past its length yields `0` (`byte_at`), and a `0` inside it ends the C string;
* the three globals `src`, `pos`, `line_no` form the record `Lexer`, passed
  explicitly;
* a `char *` result (a lexeme) is the list of its bytes before the terminator;
* the growable `TokenArray` is the list of its `count` items in order
  (capacity and reallocation are not modelled);
* every `while` loop is a recursion on a bound of its iteration count: each
  iteration needs `src[pos] != 0`, hence `pos < length`, and advances `pos`, so
  `length - pos` iterations always suffice (`lex_loop_lexS` and the `_loop_eq`
  lemmas show the result is the same for every larger bound);
* `line_no` is an `int` that counts newlines of the input; it is a `Nat` here,
  which is exact for inputs with fewer than `2^31 - 1` newlines; a theorem that gives
  the line of a token after an unbounded number of newlines carries that bound;
* allocation failure (`malloc`, `realloc` returning `NULL`) is not modelled;
* `main` takes the file system as two parameters (what reading a path gives, whether
  a path can be opened for writing) and returns its exit status, the paths it passed
  to `fopen` and the bytes it wrote;
* a theorem about a text that must be read to its end assumes `0 ∉` that text, as the
  text is part of a C string.
-/

namespace Hormuz

/-! ## Types -/

inductive TokenType where
  | TK_EOF
  | TK_IDENT
  | TK_NUMBER
  | TK_STRING
  | TK_KW
  | TK_OP
  deriving DecidableEq, Repr

open TokenType

structure Token where
  type : TokenType
  lexeme : List Nat
  line : Nat
  deriving DecidableEq, Repr

/-- The `count` items of a `struct TokenArray`, in order. -/
abbrev TokenArray := List Token

def token_array_init : TokenArray := []

def token_array_push (ta : TokenArray) (t : Token) : TokenArray := ta ++ [t]

/-! ## Keyword / symbol map -/

structure Map where
  p : List Nat
  c : List Nat
  deriving DecidableEq, Repr

/-- The entries of `keyword_map` before the `{NULL, NULL}` sentinel. -/
def keyword_map : List Map := [
  -- "اگر" -> "if"
  ⟨[216, 167, 218, 175, 216, 177], [105, 102]⟩,
  -- "جاپ" -> "printf"
  ⟨[216, 172, 216, 167, 217, 190], [112, 114, 105, 110, 116, 102]⟩,
  -- "وگرنه" -> "else"
  ⟨[217, 136, 218, 175, 216, 177, 217, 134, 217, 135], [101, 108, 115, 101]⟩,
  -- "برای" -> "for"
  ⟨[216, 168, 216, 177, 216, 167, 219, 140], [102, 111, 114]⟩,
  -- "درحالی که" -> "while"
  ⟨[216, 175, 216, 177, 216, 173, 216, 167, 217, 132, 219, 140, 32, 218, 169, 217, 135],
    [119, 104, 105, 108, 101]⟩,
  -- "اشاره" -> "void*"
  ⟨[216, 167, 216, 180, 216, 167, 216, 177, 217, 135], [118, 111, 105, 100, 42]⟩,
  -- "تابع" -> "void"
  ⟨[216, 170, 216, 167, 216, 168, 216, 185], [118, 111, 105, 100]⟩,
  -- "بازگردان" -> "return"
  ⟨[216, 168, 216, 167, 216, 178, 218, 175, 216, 177, 216, 175, 216, 167, 217, 134],
    [114, 101, 116, 117, 114, 110]⟩,
  -- "صحیح" -> "int"
  ⟨[216, 181, 216, 173, 219, 140, 216, 173], [105, 110, 116]⟩,
  -- "اعشاری" -> "double"
  ⟨[216, 167, 216, 185, 216, 180, 216, 167, 216, 177, 219, 140], [100, 111, 117, 98, 108, 101]⟩,
  -- "رشته" -> "char*"
  ⟨[216, 177, 216, 180, 216, 170, 217, 135], [99, 104, 97, 114, 42]⟩,
  -- "و" -> "&&"
  ⟨[217, 136], [38, 38]⟩,
  -- "یا" -> "||"
  ⟨[219, 140, 216, 167], [124, 124]⟩,
  -- "برابر" -> "=="
  ⟨[216, 168, 216, 177, 216, 167, 216, 168, 216, 177], [61, 61]⟩,
  -- "نابرابر" -> "!="
  ⟨[217, 134, 216, 167, 216, 168, 216, 177, 216, 167, 216, 168, 216, 177], [33, 61]⟩,
  -- "کمتر" -> "<"
  ⟨[218, 169, 217, 133, 216, 170, 216, 177], [60]⟩,
  -- "بزرگتر" -> ">"
  ⟨[216, 168, 216, 178, 216, 177, 218, 175, 216, 170, 216, 177], [62]⟩,
  -- "افزایش" -> "++"
  ⟨[216, 167, 217, 129, 216, 178, 216, 167, 219, 140, 216, 180], [43, 43]⟩
]

/-- The entries of `symbols` before the `NULL` sentinel:
`==  !=  ++  --  &&  ||  {  }  (  )  ,  ;  +  -  *  /  =  <  >  %  !`. -/
def symbols : List (List Nat) := [
  [61, 61], [33, 61], [43, 43], [45, 45], [38, 38], [124, 124],
  [123], [125], [40], [41], [44], [59], [43], [45], [42], [47], [61], [60], [62], [37], [33]
]

/-! ## `<ctype.h>` in the "C" locale -/

def isspace (c : Nat) : Bool := c == 32 || (decide (9 ≤ c) && decide (c ≤ 13))

def isdigit (c : Nat) : Bool := decide (48 ≤ c) && decide (c ≤ 57)

def isalpha (c : Nat) : Bool :=
  (decide (65 ≤ c) && decide (c ≤ 90)) || (decide (97 ≤ c) && decide (c ≤ 122))

def isalnum (c : Nat) : Bool := isalpha c || isdigit c

/-! ## Lexer -/

/-- The globals `src`, `pos`, `line_no`. -/
structure Lexer where
  src : List Nat
  pos : Nat
  line_no : Nat
  deriving DecidableEq, Repr

/-- The byte `src[i]` of a NUL-terminated buffer. -/
def byte_at (src : List Nat) (i : Nat) : Nat := src.getD i 0

/-- The `len` bytes copied by `memcpy(s, src + start, len)`. -/
def slice (src : List Nat) (start len : Nat) : List Nat := (src.drop start).take len

/-- The loop of `skip_space`. The counter `line_no` is a C `int`; the `Nat` here is its value
as long as it stays at most `2147483647`, that is, while fewer than `2147483647` newlines
have been counted from line 1. -/
def skip_space_loop : Nat → Lexer → Lexer
  | 0, L => L
  | n + 1, L =>
    if byte_at L.src L.pos = 0 then L
    else if byte_at L.src L.pos = 10 then
      skip_space_loop n { L with line_no := L.line_no + 1, pos := L.pos + 1 }
    else if isspace (byte_at L.src L.pos) then
      skip_space_loop n { L with pos := L.pos + 1 }
    else L

def skip_space (L : Lexer) : Lexer := skip_space_loop (L.src.length - L.pos) L

def is_ident_start (c : Nat) : Bool := isalpha c || c == 95 || (c &&& 0x80 != 0)

def read_identifier_loop : Nat → Lexer → Lexer
  | 0, L => L
  | n + 1, L =>
    let c := byte_at L.src L.pos
    if c = 0 then L
    else if c &&& 0x80 ≠ 0 then read_identifier_loop n { L with pos := L.pos + 1 }
    else if isalnum c || c == 95 then read_identifier_loop n { L with pos := L.pos + 1 }
    else L

def read_identifier (L : Lexer) : List Nat × Lexer :=
  let start := L.pos
  let L1 := read_identifier_loop (L.src.length - L.pos) L
  let len := L1.pos - start
  (slice L1.src start len, L1)

/-- The loop `while (isdigit((unsigned char)src[pos])) pos++;`. -/
def read_digits_loop : Nat → Lexer → Lexer
  | 0, L => L
  | n + 1, L =>
    if isdigit (byte_at L.src L.pos) then read_digits_loop n { L with pos := L.pos + 1 }
    else L

def read_number (L : Lexer) : List Nat × Lexer :=
  let start := L.pos
  let L1 := read_digits_loop (L.src.length - L.pos) L
  let L2 :=
    if byte_at L1.src L1.pos = 46 then
      let L1a := { L1 with pos := L1.pos + 1 }
      read_digits_loop (L1a.src.length - L1a.pos) L1a
    else L1
  let len := L2.pos - start
  (slice L2.src start len, L2)

def read_string_loop : Nat → Lexer → Lexer
  | 0, L => L
  | n + 1, L =>
    if byte_at L.src L.pos ≠ 0 ∧ byte_at L.src L.pos ≠ 34 then
      if byte_at L.src L.pos = 92 ∧ byte_at L.src (L.pos + 1) ≠ 0 then
        read_string_loop n { L with pos := L.pos + 2 }
      else read_string_loop n { L with pos := L.pos + 1 }
    else L

def read_string (L : Lexer) : List Nat × Lexer :=
  let L0 := { L with pos := L.pos + 1 }
  let start := L0.pos
  let L1 := read_string_loop (L0.src.length - L0.pos) L0
  let len := L1.pos - start
  let s := slice L1.src start len
  let L2 := if byte_at L1.src L1.pos = 34 then { L1 with pos := L1.pos + 1 } else L1
  (s, L2)

/-- The scan of `try_keyword_map_exact` over the remaining entries; `strcmp(p, ident) == 0`
is equality of the two byte strings. -/
def try_keyword_map_scan : List Map → List Nat → Option (List Nat)
  | [], _ => none
  | e :: rest, ident => if e.p = ident then some e.c else try_keyword_map_scan rest ident

/-- The result is `some c` for `*out_c = c; return 1` and `none` for `return 0`. -/
def try_keyword_map_exact (ident : List Nat) : Option (List Nat) :=
  try_keyword_map_scan keyword_map ident

/-- The test `strncmp(src + pos, s, n) == 0`: the first `n` bytes of the two C strings agree,
a C string ending at its first NUL. -/
def strncmp_eq (src : List Nat) (pos : Nat) (s : List Nat) (n : Nat) : Bool :=
  ((src.drop pos).takeWhile (fun b => b != 0)).take n == (s.takeWhile (fun b => b != 0)).take n

/-- The `for` loop over `symbols`: the first entry that the rest of the input starts with. -/
def match_symbol : List (List Nat) → Lexer → Option (List Nat)
  | [], _ => none
  | s :: rest, L =>
    if strncmp_eq L.src L.pos s s.length then some s else match_symbol rest L

/-- The bytes of `"{}(),;+-*/=%<>![]"`. -/
def punct_set : List Nat := [123, 125, 40, 41, 44, 59, 43, 45, 42, 47, 61, 37, 60, 62, 33, 91, 93]

/-- One iteration of the main loop of `lex_all_to_array`, entered with `src[pos] != 0`:
the new globals and the token pushed, if any. -/
def lex_step (L : Lexer) : Lexer × Option Token :=
  let c := byte_at L.src L.pos
  if isspace c then (skip_space L, none)
  else if isdigit c then
    let r := read_number L
    (r.2, some ⟨TK_NUMBER, r.1, r.2.line_no⟩)
  else if c = 34 then
    let r := read_string L
    (r.2, some ⟨TK_STRING, r.1, r.2.line_no⟩)
  else if is_ident_start c then
    let r := read_identifier L
    match try_keyword_map_exact r.1 with
    | some mapped => (r.2, some ⟨TK_KW, mapped, r.2.line_no⟩)
    | none => (r.2, some ⟨TK_IDENT, r.1, r.2.line_no⟩)
  else
    match match_symbol symbols L with
    | some s => ({ L with pos := L.pos + s.length }, some ⟨TK_OP, s, L.line_no⟩)
    | none =>
      if c ∈ punct_set then ({ L with pos := L.pos + 1 }, some ⟨TK_OP, [c], L.line_no⟩)
      else ({ L with pos := L.pos + 1 }, none)

/-- The main loop `while (src[pos]) { ... }` of `lex_all_to_array`. -/
def lex_loop : Nat → Lexer → TokenArray → Lexer × TokenArray
  | 0, L, out => (L, out)
  | n + 1, L, out =>
    if byte_at L.src L.pos = 0 then (L, out)
    else
      match lex_step L with
      | (L1, some t) => lex_loop n L1 (token_array_push out t)
      | (L1, none) => lex_loop n L1 out

/-- The bytes of `"<eof>"`. -/
def eof_lexeme : List Nat := [60, 101, 111, 102, 62]

/-- The function `lex_all_to_array(input, out)`, started with the globals as `g` left them:
the globals afterwards and the token array written to `out`. -/
def lex_all_to_array (g : Lexer) (input : List Nat) : Lexer × TokenArray :=
  let g1 : Lexer := { g with src := input, pos := 0, line_no := 1 }
  let out := token_array_init
  let g2 := skip_space g1
  let r := lex_loop (g2.src.length - g2.pos) g2 out
  (r.1, token_array_push r.2 ⟨TK_EOF, eof_lexeme, r.1.line_no⟩)

/-! ## Generator -/

/-- The bytes `generate_raw_c(toks, out)` writes to `out`. -/
def generate_raw_c : TokenArray → List Nat
  | [] => []
  | t :: rest =>
    if t.type = TK_EOF then []
    else
      (if t.type = TK_STRING then [34] ++ t.lexeme ++ [34] else t.lexeme) ++ [32]
        ++ generate_raw_c rest

/-! ## The lexer seen from the unread rest of the input

These functions restate each scanning loop on the list `src.drop pos` of the bytes not
yet read. They are proved equal to the loops above and carry the proofs. -/

/-- The bytes on which the loop of `read_identifier` continues. -/
def is_ident_char (c : Nat) : Bool := (c &&& 0x80 != 0) || (isalnum c || c == 95)

/-- Number of bytes `read_number` consumes from `rest`. -/
def number_len (rest : List Nat) : Nat :=
  let k := (rest.takeWhile isdigit).length
  if (rest.drop k).headD 0 = 46 then k + 1 + ((rest.drop (k + 1)).takeWhile isdigit).length
  else k

/-- Number of bytes the loop of `read_string` consumes from `rest`, the input after the
opening quote. -/
def string_body_len : List Nat → Nat
  | [] => 0
  | [c] => if c ≠ 0 ∧ c ≠ 34 then 1 else 0
  | c :: d :: ds =>
    if c ≠ 0 ∧ c ≠ 34 then
      if c = 92 ∧ d ≠ 0 then 2 + string_body_len ds else 1 + string_body_len (d :: ds)
    else 0

/-- One iteration of the main loop on the unread input `rest` at line `line`:
the number of bytes consumed, the line afterwards and the token pushed, if any. -/
def step_view (rest : List Nat) (line : Nat) : Nat × Nat × Option Token :=
  let c := rest.headD 0
  if isspace c then
    ((rest.takeWhile isspace).length, line + (rest.takeWhile isspace).count 10, none)
  else if isdigit c then
    (number_len rest, line, some ⟨TK_NUMBER, rest.take (number_len rest), line⟩)
  else if c = 34 then
    let r := rest.drop 1
    let k := string_body_len r
    (1 + k + (if (r.drop k).headD 0 = 34 then 1 else 0), line, some ⟨TK_STRING, r.take k, line⟩)
  else if is_ident_start c then
    let id := rest.takeWhile is_ident_char
    match try_keyword_map_exact id with
    | some mapped => (id.length, line, some ⟨TK_KW, mapped, line⟩)
    | none => (id.length, line, some ⟨TK_IDENT, id, line⟩)
  else
    match match_symbol symbols ⟨rest, 0, 0⟩ with
    | some s => (s.length, line, some ⟨TK_OP, s, line⟩)
    | none =>
      if c ∈ punct_set then (1, line, some ⟨TK_OP, [c], line⟩)
      else (1, line, none)

/-- The tokens of the main loop run on `rest` from line `line` for at most `n` iterations,
with the final `TK_EOF` token. -/
def lex_view : Nat → List Nat → Nat → List Token
  | 0, _, line => [⟨TK_EOF, eof_lexeme, line⟩]
  | n + 1, rest, line =>
    if rest.headD 0 = 0 then [⟨TK_EOF, eof_lexeme, line⟩]
    else
      match step_view rest line with
      | (k, line1, some t) => t :: lex_view n (rest.drop k) line1
      | (k, line1, none) => lex_view n (rest.drop k) line1

/-- The token sequence of the unread input `rest` from line `line`. -/
def lexS (rest : List Nat) (line : Nat) : List Token := lex_view rest.length rest line

/-! ## Vocabulary of the specification -/

/-- The bytes `اگر ( صحیح x برابر 5 ) { جاپ ( "hi" ) ; }`. -/
def scenario_input : List Nat :=
  [216, 167, 218, 175, 216, 177, 32, 40, 32, 216, 181, 216, 173, 219, 140, 216, 173, 32, 120, 32,
   216, 168, 216, 177, 216, 167, 216, 168, 216, 177, 32, 53, 32, 41, 32, 123, 32,
   216, 172, 216, 167, 217, 190, 32, 40, 32, 34, 104, 105, 34, 32, 41, 32, 59, 32, 125]

/-- The bytes `if ( int x == 5 ) { printf ( "hi" ) ; } `, a space after each of the 14 tokens. -/
def scenario_output : List Nat :=
  [105, 102, 32, 40, 32, 105, 110, 116, 32, 120, 32, 61, 61, 32, 53, 32, 41, 32, 123, 32,
   112, 114, 105, 110, 116, 102, 32, 40, 32, 34, 104, 105, 34, 32, 41, 32, 59, 32, 125, 32]

/-- The texts of the 14 tokens of the scenario, as emitted:
`if`, `(`, `int`, `x`, `==`, `5`, `)`, `{`, `printf`, `(`, `"hi"`, `)`, `;`, `}`. -/
def scenario_texts : List (List Nat) :=
  [[105, 102], [40], [105, 110, 116], [120], [61, 61], [53], [41], [123],
   [112, 114, 105, 110, 116, 102], [40], [34, 104, 105, 34], [41], [59], [125]]

/-- The terminating token, on line `line`. -/
def eof_token (line : Nat) : Token := ⟨TK_EOF, eof_lexeme, line⟩

/-- A byte with the high bit set. -/
def high_bit (c : Nat) : Bool := decide (128 ≤ c) && decide (c < 256)

/-- An identifier-shaped string: non-empty, its first byte an ASCII letter, an underscore or a
byte with the high bit set, every byte an ASCII letter or digit, an underscore or a byte with
the high bit set. -/
def ident_shaped (w : List Nat) : Bool :=
  match w with
  | [] => false
  | c :: _ =>
    (isalpha c || c == 95 || high_bit c) &&
      w.all (fun b => isalpha b || isdigit b || b == 95 || high_bit b)

/-- A unit of a well-formed string literal body: one byte other than `"` and backslash, or a
backslash followed by one byte; the bytes are those of a C string, so none is NUL. -/
def is_body_unit (u : List Nat) : Bool :=
  match u with
  | [c] => c != 34 && c != 92 && c != 0
  | [b, d] => b == 92 && d != 0
  | _ => false

/-- What the generator is specified to write for one token: its text, wrapped in double quotes
for a string literal, followed by one space. -/
def fragment (t : Token) : List Nat :=
  (if t.type = TK_STRING then [34] ++ t.lexeme ++ [34] else t.lexeme) ++ [32]

/-- The tokens that precede the first `TK_EOF` token. -/
def tokens_before_end (ts : TokenArray) : List Token :=
  ts.takeWhile (fun t => t.type != TK_EOF)

/-- The bytes of `while`. -/
def while_text : List Nat := [119, 104, 105, 108, 101]

/-- The kinds and texts of a token sequence, the line numbers left out. -/
def kinds_texts (ts : TokenArray) : List (TokenType × List Nat) :=
  ts.map (fun t => (t.type, t.lexeme))

/-- An unrecognized byte: an ASCII byte of a C string (so not NUL) that is not whitespace, not a
digit, not a letter, not an underscore, not `"`, not one of `{}(),;+-*/=%<>![]`, and not `.`,
`&` or `|`. -/
def unrecognized (c : Nat) : Bool :=
  decide (0 < c) && decide (c < 128) && !isspace c && !isdigit c && !isalpha c && c != 95
    && c != 34 && !punct_set.contains c && c != 46 && c != 38 && c != 124

/-! ## Main -/

/-- The bytes of `"-i"`. -/
def dash_i : List Nat := [45, 105]

/-- The bytes of `"-o"`. -/
def dash_o : List Nat := [45, 111]

/-- The loop `for (int i=1;i<argc;i++)` of `main` from index `i`, with `infile` and `outfile`
as set so far (`none` for `NULL`); `argc` is the length of `argv`. -/
def main_args_loop : Nat → List (List Nat) → Nat → Option (List Nat) → Option (List Nat)
    → Option (List Nat) × Option (List Nat)
  | 0, _, _, infile, outfile => (infile, outfile)
  | n + 1, argv, i, infile, outfile =>
    if i < argv.length then
      if argv.getD i [] = dash_i ∧ i + 1 < argv.length then
        main_args_loop n argv (i + 2) (some (argv.getD (i + 1) [])) outfile
      else if argv.getD i [] = dash_o ∧ i + 1 < argv.length then
        main_args_loop n argv (i + 2) infile (some (argv.getD (i + 1) []))
      else main_args_loop n argv (i + 1) infile outfile
    else (infile, outfile)

/-- The values of `infile` and `outfile` after the argument loop of `main`. -/
def main_args (argv : List (List Nat)) : Option (List Nat) × Option (List Nat) :=
  main_args_loop argv.length argv 1 none none

/-- What a run of `main` did: its exit status, the paths it passed to `fopen`, in order, and the
bytes it wrote to the output file, if it got that far. -/
structure MainResult where
  status : Nat
  opened : List (List Nat)
  output : Option (List Nat)
  deriving DecidableEq, Repr

/-- The function `main(argc, argv)`. The file system is a parameter: `file path` is the content
that reading the file opened by `fopen(path, "rb")` gives, `none` when that `fopen` fails, and
`writable path` tells whether `fopen(path, "wb")` succeeds. The globals start as C initializes
them. -/
def main (argv : List (List Nat)) (file : List Nat → Option (List Nat))
    (writable : List Nat → Bool) : MainResult :=
  if argv.length < 3 then ⟨1, [], none⟩
  else
    match main_args argv with
    | (some infile, some outfile) =>
      match file infile with
      | none => ⟨1, [infile], none⟩
      | some buf =>
        let toks := (lex_all_to_array ⟨[], 0, 1⟩ buf).2
        if writable outfile then ⟨0, [infile, outfile], some (generate_raw_c toks)⟩
        else ⟨1, [infile, outfile], none⟩
    | _ => ⟨1, [], none⟩

/-- A byte that separates tokens: whitespace or an unrecognized byte. -/
def separator (x : Nat) : Bool := isspace x || unrecognized x

/-! ## Reading the buffer through its unread rest -/

theorem byte_at_of_drop_cons {src : List Nat} {i c : Nat} {cs : List Nat}
    (h : src.drop i = c :: cs) : byte_at src i = c := by
  have h1 : (src.drop i)[0]? = some c := by rw [h]; simp
  rw [List.getElem?_drop] at h1
  simp only [Nat.add_zero] at h1
  simp [byte_at, List.getD_eq_getElem?_getD, h1]

theorem byte_at_of_drop_nil {src : List Nat} {i : Nat}
    (h : src.drop i = []) : byte_at src i = 0 := by
  have h1 : src.length ≤ i := List.drop_eq_nil_iff.mp h
  simp [byte_at, List.getD_eq_getElem?_getD, List.getElem?_eq_none h1]

theorem byte_at_eq_headD (src : List Nat) (i : Nat) :
    byte_at src i = (src.drop i).headD 0 := by
  cases h : src.drop i with
  | nil => simp [byte_at_of_drop_nil h]
  | cons c cs => simp [byte_at_of_drop_cons h]

theorem drop_add_of_drop {src : List Nat} {i : Nat} {rest : List Nat}
    (h : src.drop i = rest) (k : Nat) : src.drop (i + k) = rest.drop k := by
  rw [← h, List.drop_drop]

theorem drop_succ_of_drop_cons {src : List Nat} {i c : Nat} {cs : List Nat}
    (h : src.drop i = c :: cs) : src.drop (i + 1) = cs := by
  rw [drop_add_of_drop h 1]; rfl

theorem length_sub_of_drop {src : List Nat} {i : Nat} {rest : List Nat}
    (h : src.drop i = rest) : src.length - i = rest.length := by
  rw [← h, List.length_drop]

theorem take_length_takeWhile (p : Nat → Bool) (l : List Nat) :
    l.take (l.takeWhile p).length = l.takeWhile p := by
  induction l with
  | nil => rfl
  | cons a l ih =>
    by_cases h : p a = true
    · simp [List.takeWhile, h, ih]
    · simp [List.takeWhile, h]

theorem length_takeWhile_le (p : Nat → Bool) (l : List Nat) :
    (l.takeWhile p).length ≤ l.length := by
  induction l with
  | nil => simp
  | cons a l ih =>
    by_cases h : p a = true
    · simp [List.takeWhile, h, ih]
    · simp [List.takeWhile, h]

theorem drop_length_takeWhile (p : Nat → Bool) (l : List Nat) :
    l.drop (l.takeWhile p).length = l.dropWhile p := by
  induction l with
  | nil => rfl
  | cons a l ih =>
    by_cases h : p a = true
    · simp [List.takeWhile, List.dropWhile, h, ih]
    · simp [List.takeWhile, List.dropWhile, h]

theorem skip_space_loop_eq (rest : List Nat) : ∀ (n : Nat) (L : Lexer),
    L.src.drop L.pos = rest → rest.length ≤ n →
    skip_space_loop n L =
      ⟨L.src, L.pos + (rest.takeWhile isspace).length,
        L.line_no + (rest.takeWhile isspace).count 10⟩ := by
  induction rest with
  | nil =>
    intro n L h _
    have hb := byte_at_of_drop_nil h
    cases n <;> simp [skip_space_loop, hb]
  | cons c cs ih =>
    intro n L h hn
    obtain ⟨m, rfl⟩ : ∃ m, n = m + 1 := ⟨n - 1, by simp at hn; omega⟩
    have hb := byte_at_of_drop_cons h
    have hd := drop_succ_of_drop_cons h
    have hm : cs.length ≤ m := by simp at hn; omega
    unfold skip_space_loop
    rw [hb]
    by_cases h0 : c = 0
    · subst h0; simp [isspace]
    · rw [if_neg h0]
      by_cases h10 : c = 10
      · subst h10
        rw [if_pos rfl, ih m _ hd hm]
        simp [List.takeWhile, isspace]
        omega
      · rw [if_neg h10]
        by_cases hs : isspace c = true
        · rw [if_pos hs, ih m _ hd hm]
          simp [List.takeWhile, hs, List.count_cons, h10]
          omega
        · rw [if_neg hs]
          simp [List.takeWhile, hs]

theorem skip_space_eq (L : Lexer) (rest : List Nat) (h : L.src.drop L.pos = rest) :
    skip_space L =
      ⟨L.src, L.pos + (rest.takeWhile isspace).length,
        L.line_no + (rest.takeWhile isspace).count 10⟩ :=
  skip_space_loop_eq rest (L.src.length - L.pos) L h (by rw [length_sub_of_drop h])

theorem is_ident_char_zero : is_ident_char 0 = false := by decide

theorem read_identifier_loop_eq (rest : List Nat) : ∀ (n : Nat) (L : Lexer),
    L.src.drop L.pos = rest → rest.length ≤ n →
    read_identifier_loop n L =
      ⟨L.src, L.pos + (rest.takeWhile is_ident_char).length, L.line_no⟩ := by
  induction rest with
  | nil =>
    intro n L h _
    have hb := byte_at_of_drop_nil h
    cases n <;> simp [read_identifier_loop, hb]
  | cons c cs ih =>
    intro n L h hn
    obtain ⟨m, rfl⟩ : ∃ m, n = m + 1 := ⟨n - 1, by simp at hn; omega⟩
    have hb := byte_at_of_drop_cons h
    have hd := drop_succ_of_drop_cons h
    have hm : cs.length ≤ m := by simp at hn; omega
    unfold read_identifier_loop
    simp only [hb]
    by_cases h0 : c = 0
    · subst h0; simp [List.takeWhile, is_ident_char_zero]
    · rw [if_neg h0]
      by_cases hh : c &&& 0x80 ≠ 0
      · rw [if_pos hh, ih m _ hd hm]
        have : is_ident_char c = true := by simp [is_ident_char, hh]
        simp [List.takeWhile, this]
        omega
      · rw [if_neg hh]
        by_cases ha : (isalnum c || c == 95) = true
        · rw [if_pos ha, ih m _ hd hm]
          have : is_ident_char c = true := by
            unfold is_ident_char; rw [ha]; simp
          simp [List.takeWhile, this]
          omega
        · rw [if_neg ha]
          have : is_ident_char c = false := by
            unfold is_ident_char
            simp only [ne_eq, not_not] at hh
            simp only [Bool.not_eq_true] at ha
            rw [ha, hh]; rfl
          simp [List.takeWhile, this]

theorem read_identifier_eq (L : Lexer) (rest : List Nat) (h : L.src.drop L.pos = rest) :
    read_identifier L =
      (rest.takeWhile is_ident_char,
        ⟨L.src, L.pos + (rest.takeWhile is_ident_char).length, L.line_no⟩) := by
  have hl := read_identifier_loop_eq rest (L.src.length - L.pos) L h
    (by rw [length_sub_of_drop h])
  unfold read_identifier
  simp only [hl]
  simp [slice, h, take_length_takeWhile]

theorem isdigit_zero : isdigit 0 = false := by decide

theorem read_digits_loop_eq (rest : List Nat) : ∀ (n : Nat) (L : Lexer),
    L.src.drop L.pos = rest → rest.length ≤ n →
    read_digits_loop n L =
      ⟨L.src, L.pos + (rest.takeWhile isdigit).length, L.line_no⟩ := by
  induction rest with
  | nil =>
    intro n L h _
    have hb := byte_at_of_drop_nil h
    cases n <;> simp [read_digits_loop, hb, isdigit_zero]
  | cons c cs ih =>
    intro n L h hn
    obtain ⟨m, rfl⟩ : ∃ m, n = m + 1 := ⟨n - 1, by simp at hn; omega⟩
    have hb := byte_at_of_drop_cons h
    have hd := drop_succ_of_drop_cons h
    have hm : cs.length ≤ m := by simp at hn; omega
    unfold read_digits_loop
    rw [hb]
    by_cases hdg : isdigit c = true
    · rw [if_pos hdg, ih m _ hd hm]
      simp [List.takeWhile, hdg]
      omega
    · rw [if_neg hdg]
      simp [List.takeWhile, hdg]

theorem read_number_eq (L : Lexer) (rest : List Nat) (h : L.src.drop L.pos = rest) :
    read_number L =
      (rest.take (number_len rest), ⟨L.src, L.pos + number_len rest, L.line_no⟩) := by
  have h1 := read_digits_loop_eq rest (L.src.length - L.pos) L h
    (by rw [length_sub_of_drop h])
  have hk := drop_add_of_drop h (rest.takeWhile isdigit).length
  have hk1 : L.src.drop (L.pos + (rest.takeWhile isdigit).length + 1)
      = rest.drop ((rest.takeWhile isdigit).length + 1) := by
    rw [Nat.add_assoc]; exact drop_add_of_drop h _
  have h2 := read_digits_loop_eq (rest.drop ((rest.takeWhile isdigit).length + 1))
    (L.src.length - (L.pos + (rest.takeWhile isdigit).length + 1))
    ⟨L.src, L.pos + (rest.takeWhile isdigit).length + 1, L.line_no⟩ hk1
    (by rw [length_sub_of_drop hk1])
  unfold read_number
  simp only [h1, byte_at_eq_headD, hk]
  unfold number_len
  by_cases h46 : (rest.drop (rest.takeWhile isdigit).length).headD 0 = 46
  · simp only [h46, if_true, h2]
    simp [slice, h]
    constructor
    · congr 1; omega
    · omega
  · simp only [h46, if_false]
    simp [slice, h]

theorem read_string_loop_eq : ∀ (n : Nat) (rest : List Nat) (L : Lexer),
    L.src.drop L.pos = rest → rest.length ≤ n →
    read_string_loop n L = ⟨L.src, L.pos + string_body_len rest, L.line_no⟩ := by
  intro n
  induction n with
  | zero =>
    intro rest L _ hn
    have : rest = [] := List.length_eq_zero.mp (Nat.le_zero.mp hn)
    subst this
    simp [read_string_loop, string_body_len]
  | succ m ih =>
    intro rest L h hn
    unfold read_string_loop
    match rest, h, hn with
    | [], h, _ =>
      simp [byte_at_of_drop_nil h, string_body_len]
    | [c], h, _ =>
      have hb := byte_at_of_drop_cons h
      have hd := drop_succ_of_drop_cons h
      have hb1 : byte_at L.src (L.pos + 1) = 0 := byte_at_of_drop_nil hd
      rw [hb, hb1]
      by_cases hc : c ≠ 0 ∧ c ≠ 34
      · rw [if_pos hc, if_neg (by simp), ih [] _ hd (by simp)]
        simp [string_body_len, hc]
      · rw [if_neg hc]
        simp only [string_body_len, if_neg hc, Nat.add_zero]
    | c :: d :: ds, h, hn =>
      have hb := byte_at_of_drop_cons h
      have hd := drop_succ_of_drop_cons h
      have hb1 : byte_at L.src (L.pos + 1) = d := byte_at_of_drop_cons hd
      have hd2 : L.src.drop (L.pos + 2) = ds := drop_succ_of_drop_cons hd
      rw [hb, hb1]
      by_cases hc : c ≠ 0 ∧ c ≠ 34
      · rw [if_pos hc]
        by_cases he : c = 92 ∧ d ≠ 0
        · rw [if_pos he, ih ds _ hd2 (by simp at hn ⊢; omega)]
          simp only [string_body_len, if_pos hc, if_pos he, Lexer.mk.injEq, true_and, and_true]
          omega
        · rw [if_neg he, ih (d :: ds) _ hd (by simp at hn ⊢; omega)]
          simp only [string_body_len, if_pos hc, if_neg he, Lexer.mk.injEq, true_and, and_true]
          omega
      · rw [if_neg hc]
        simp only [string_body_len, if_neg hc, Nat.add_zero]

theorem read_string_eq (L : Lexer) (rest : List Nat) (h : L.src.drop L.pos = rest) :
    read_string L =
      ((rest.drop 1).take (string_body_len (rest.drop 1)),
        ⟨L.src, L.pos + (1 + string_body_len (rest.drop 1)
          + (if ((rest.drop 1).drop (string_body_len (rest.drop 1))).headD 0 = 34 then 1 else 0)),
          L.line_no⟩) := by
  have hd1 : L.src.drop (L.pos + 1) = rest.drop 1 := drop_add_of_drop h 1
  have h1 := read_string_loop_eq (L.src.length - (L.pos + 1)) (rest.drop 1)
    ⟨L.src, L.pos + 1, L.line_no⟩ hd1 (by rw [length_sub_of_drop hd1])
  have hk : L.src.drop (L.pos + 1 + string_body_len (rest.drop 1))
      = (rest.drop 1).drop (string_body_len (rest.drop 1)) := drop_add_of_drop hd1 _
  unfold read_string
  simp only [h1, byte_at_eq_headD, hk]
  by_cases hq : ((rest.drop 1).drop (string_body_len (rest.drop 1))).headD 0 = 34
  · simp only [hq, if_true]
    simp [slice, hd1]
    omega
  · simp only [hq, if_false]
    simp [slice, hd1]
    omega

theorem match_symbol_eq (syms : List (List Nat)) (L : Lexer) (rest : List Nat)
    (h : L.src.drop L.pos = rest) :
    match_symbol syms L = match_symbol syms ⟨rest, 0, 0⟩ := by
  induction syms with
  | nil => rfl
  | cons s syms ih => simp [match_symbol, strncmp_eq, h, ih]

theorem lex_step_eq (L : Lexer) (rest : List Nat) (h : L.src.drop L.pos = rest) :
    lex_step L =
      (⟨L.src, L.pos + (step_view rest L.line_no).1, (step_view rest L.line_no).2.1⟩,
        (step_view rest L.line_no).2.2) := by
  unfold lex_step step_view
  simp only [byte_at_eq_headD, h, skip_space_eq L rest h, read_number_eq L rest h,
    read_string_eq L rest h, read_identifier_eq L rest h, match_symbol_eq symbols L rest h]
  by_cases h1 : isspace (rest.headD 0) = true
  · simp only [if_pos h1]
  · simp only [if_neg h1]
    by_cases h2 : isdigit (rest.headD 0) = true
    · simp only [if_pos h2]
    · simp only [if_neg h2]
      by_cases h3 : rest.headD 0 = 34
      · simp only [if_pos h3]
      · simp only [if_neg h3]
        by_cases h4 : is_ident_start (rest.headD 0) = true
        · simp only [if_pos h4]
          cases try_keyword_map_exact (rest.takeWhile is_ident_char) <;> rfl
        · simp only [if_neg h4]
          cases match_symbol symbols ⟨rest, 0, 0⟩ with
          | some s => rfl
          | none =>
            by_cases h5 : rest.headD 0 ∈ punct_set
            · simp only [if_pos h5]
            · simp only [if_neg h5]

/-! ## Symbol matching -/

theorem symbols_nul_free : ∀ s ∈ symbols, ∀ b ∈ s, b ≠ 0 := by decide

theorem symbols_nonempty : ∀ s ∈ symbols, 1 ≤ s.length := by decide

theorem strncmp_eq_iff_starts (rest s : List Nat) (hs : ∀ b ∈ s, b ≠ 0) :
    strncmp_eq rest 0 s s.length = true ↔ s <+: rest := by
  have hs1 : s.takeWhile (fun b => b != 0) = s := by
    rw [List.takeWhile_eq_self_iff]
    intro b hb; simpa using hs b hb
  unfold strncmp_eq
  rw [hs1, List.take_length, List.drop_zero, beq_iff_eq]
  constructor
  · intro h
    rw [← h]
    exact (List.take_prefix _ _).trans (List.takeWhile_prefix _)
  · rintro ⟨t, rfl⟩
    rw [List.takeWhile_append_of_pos (by intro b hb; simpa using hs b hb)]
    simp

theorem match_symbol_some {syms : List (List Nat)} {rest s : List Nat}
    (h : match_symbol syms ⟨rest, 0, 0⟩ = some s) :
    s ∈ syms ∧ strncmp_eq rest 0 s s.length = true := by
  induction syms with
  | nil => simp [match_symbol] at h
  | cons a syms ih =>
    unfold match_symbol at h
    by_cases ha : strncmp_eq rest 0 a a.length = true
    · simp only [ha, if_true, Option.some.injEq] at h
      subst h
      exact ⟨List.mem_cons_self _ _, ha⟩
    · simp only [ha] at h
      have := ih h
      exact ⟨List.mem_cons_of_mem _ this.1, this.2⟩

theorem match_symbol_starts {rest s : List Nat}
    (h : match_symbol symbols ⟨rest, 0, 0⟩ = some s) : s ∈ symbols ∧ s <+: rest := by
  have := match_symbol_some h
  exact ⟨this.1, (strncmp_eq_iff_starts rest s (symbols_nul_free s this.1)).mp this.2⟩

/-! ## Progress of one iteration -/

theorem is_ident_char_of_start {c : Nat} (h : is_ident_start c = true) :
    is_ident_char c = true := by
  unfold is_ident_start at h
  unfold is_ident_char isalnum
  simp only [Bool.or_eq_true] at h ⊢
  tauto

theorem length_takeWhile_pos (p : Nat → Bool) (c : Nat) (cs : List Nat) (h : p c = true) :
    1 ≤ ((c :: cs).takeWhile p).length := by
  simp [List.takeWhile, h]

theorem string_body_len_le : ∀ (n : Nat) (r : List Nat), r.length ≤ n →
    string_body_len r ≤ r.length := by
  intro n
  induction n with
  | zero =>
    intro r hr
    have : r = [] := List.length_eq_zero.mp (Nat.le_zero.mp hr)
    subst this; simp [string_body_len]
  | succ m ih =>
    intro r hr
    match r, hr with
    | [], _ => simp [string_body_len]
    | [c], _ => unfold string_body_len; split_ifs <;> simp
    | c :: d :: ds, hr =>
      unfold string_body_len
      have h1 := ih ds (by simp at hr ⊢; omega)
      have h2 := ih (d :: ds) (by simp at hr ⊢; omega)
      simp only [List.length_cons] at h2 ⊢
      split_ifs <;> omega

theorem number_len_bounds (c : Nat) (cs : List Nat) (h : isdigit c = true) :
    1 ≤ number_len (c :: cs) ∧ number_len (c :: cs) ≤ (c :: cs).length := by
  have h1 := length_takeWhile_pos isdigit c cs h
  have h2 := length_takeWhile_le isdigit (c :: cs)
  unfold number_len
  by_cases h46 : ((c :: cs).drop ((c :: cs).takeWhile isdigit).length).headD 0 = 46
  · simp only [h46, if_true]
    have h3 := length_takeWhile_le isdigit
      ((c :: cs).drop (((c :: cs).takeWhile isdigit).length + 1))
    rw [List.length_drop] at h3
    have h4 : ((c :: cs).takeWhile isdigit).length < (c :: cs).length := by
      by_contra hlt
      have : (c :: cs).drop ((c :: cs).takeWhile isdigit).length = [] :=
        List.drop_eq_nil_iff.mpr (by omega)
      rw [this] at h46
      simp at h46
    constructor <;> omega
  · simp only [h46, if_false]
    exact ⟨h1, h2⟩

theorem step_view_bounds (c : Nat) (cs : List Nat) (line : Nat) :
    1 ≤ (step_view (c :: cs) line).1 ∧ (step_view (c :: cs) line).1 ≤ (c :: cs).length := by
  unfold step_view
  simp only [List.headD_cons]
  by_cases h1 : isspace c = true
  · simp only [if_pos h1]
    exact ⟨length_takeWhile_pos isspace c cs h1, length_takeWhile_le isspace _⟩
  · simp only [if_neg h1]
    by_cases h2 : isdigit c = true
    · simp only [if_pos h2]
      exact number_len_bounds c cs h2
    · simp only [if_neg h2]
      by_cases h3 : c = 34
      · simp only [if_pos h3, List.drop_succ_cons, List.drop_zero]
        have hb := string_body_len_le cs.length cs (Nat.le_refl _)
        by_cases hq : (cs.drop (string_body_len cs)).headD 0 = 34
        · have hlt : string_body_len cs < cs.length := by
            by_contra hlt
            have : cs.drop (string_body_len cs) = [] := List.drop_eq_nil_iff.mpr (by omega)
            rw [this] at hq
            simp at hq
          simp only [if_pos hq, List.length_cons]
          omega
        · simp only [if_neg hq, List.length_cons]
          omega
      · simp only [if_neg h3]
        by_cases h4 : is_ident_start c = true
        · simp only [if_pos h4]
          have hp := length_takeWhile_pos is_ident_char c cs (is_ident_char_of_start h4)
          have hl := length_takeWhile_le is_ident_char (c :: cs)
          cases try_keyword_map_exact ((c :: cs).takeWhile is_ident_char) <;> exact ⟨hp, hl⟩
        · simp only [if_neg h4]
          cases hm : match_symbol symbols ⟨c :: cs, 0, 0⟩ with
          | some s =>
            have hs := match_symbol_starts hm
            exact ⟨symbols_nonempty s hs.1, hs.2.length_le⟩
          | none =>
            by_cases h5 : c ∈ punct_set
            · simp only [if_pos h5, List.length_cons]; omega
            · simp only [if_neg h5, List.length_cons]; omega

/-! ## The main loop on the unread rest -/

theorem lex_view_succ (n : Nat) (rest : List Nat) (line : Nat) (h : rest.headD 0 ≠ 0) :
    lex_view (n + 1) rest line =
      (step_view rest line).2.2.toList ++
        lex_view n (rest.drop (step_view rest line).1) (step_view rest line).2.1 := by
  rw [lex_view, if_neg h]
  rcases hs : step_view rest line with ⟨k, line1, _ | t⟩ <;> simp

theorem lex_view_stop (n : Nat) (rest : List Nat) (line : Nat) (h : rest.headD 0 = 0) :
    lex_view n rest line = [⟨TK_EOF, eof_lexeme, line⟩] := by
  cases n with
  | zero => rfl
  | succ n => rw [lex_view, if_pos h]

theorem lex_view_fuel : ∀ (n m : Nat) (rest : List Nat) (line : Nat),
    rest.length ≤ n → rest.length ≤ m → lex_view n rest line = lex_view m rest line := by
  intro n
  induction n with
  | zero =>
    intro m rest line hn _
    have : rest = [] := List.length_eq_zero.mp (Nat.le_zero.mp hn)
    subst this
    rw [lex_view_stop 0 [] line rfl, lex_view_stop m [] line rfl]
  | succ n ih =>
    intro m rest line hn hm
    by_cases h0 : rest.headD 0 = 0
    · rw [lex_view_stop _ rest line h0, lex_view_stop m rest line h0]
    · match rest, h0, hn, hm with
      | [], h0, _, _ => simp at h0
      | c :: cs, h0, hn, hm =>
        obtain ⟨m1, rfl⟩ : ∃ m1, m = m1 + 1 := ⟨m - 1, by simp at hm; omega⟩
        have hb := step_view_bounds c cs line
        rw [lex_view_succ n _ line h0, lex_view_succ m1 _ line h0]
        congr 1
        apply ih
        · rw [List.length_drop]; simp only [List.length_cons] at hn hb ⊢; omega
        · rw [List.length_drop]; simp only [List.length_cons] at hm hb ⊢; omega

theorem lex_loop_eq : ∀ (n : Nat) (L : Lexer) (out : TokenArray) (rest : List Nat),
    L.src.drop L.pos = rest →
    token_array_push (lex_loop n L out).2 ⟨TK_EOF, eof_lexeme, (lex_loop n L out).1.line_no⟩
      = out ++ lex_view n rest L.line_no := by
  intro n
  induction n with
  | zero => intro L out rest _; rfl
  | succ n ih =>
    intro L out rest h
    by_cases h0 : rest.headD 0 = 0
    · have hb : byte_at L.src L.pos = 0 := by rw [byte_at_eq_headD, h]; exact h0
      rw [lex_view_stop _ rest _ h0, lex_loop, if_pos hb]
      rfl
    · have hb : ¬ byte_at L.src L.pos = 0 := by rw [byte_at_eq_headD, h]; exact h0
      rw [lex_view_succ n rest _ h0, lex_loop, if_neg hb, lex_step_eq L rest h]
      have hd := drop_add_of_drop h (step_view rest L.line_no).1
      cases ht : (step_view rest L.line_no).2.2 with
      | none =>
        simp only [Option.toList, List.nil_append]
        exact ih _ out _ hd
      | some t =>
        simp only [Option.toList]
        rw [ih _ (token_array_push out t) _ hd]
        simp [token_array_push]

theorem lexS_stop (rest : List Nat) (line : Nat) (h : rest.headD 0 = 0) :
    lexS rest line = [⟨TK_EOF, eof_lexeme, line⟩] :=
  lex_view_stop _ rest line h

theorem lexS_step (rest : List Nat) (line : Nat) (h : rest.headD 0 ≠ 0) :
    lexS rest line =
      (step_view rest line).2.2.toList ++
        lexS (rest.drop (step_view rest line).1) (step_view rest line).2.1 := by
  match rest, h with
  | [], h => simp at h
  | c :: cs, h =>
    have hb := step_view_bounds c cs line
    unfold lexS
    rw [List.length_cons, lex_view_succ _ _ line h]
    congr 1
    apply lex_view_fuel
    · rw [List.length_drop]; simp only [List.length_cons] at hb ⊢; omega
    · exact Nat.le_refl _

theorem lex_loop_lexS (L : Lexer) (out : TokenArray) (n : Nat)
    (hn : (L.src.drop L.pos).length ≤ n) :
    token_array_push (lex_loop n L out).2 ⟨TK_EOF, eof_lexeme, (lex_loop n L out).1.line_no⟩
      = out ++ lexS (L.src.drop L.pos) L.line_no := by
  rw [lex_loop_eq n L out _ rfl]
  congr 1
  exact lex_view_fuel _ _ _ _ hn (Nat.le_refl _)

theorem isspace_ne_zero {c : Nat} (h : isspace c = true) : c ≠ 0 := by
  rintro rfl; simp [isspace] at h

/-- Whitespace in front of the unread input only moves the line counter. -/
theorem lexS_skip (rest : List Nat) (line : Nat) :
    lexS rest line =
      lexS (rest.dropWhile isspace) (line + (rest.takeWhile isspace).count 10) := by
  match rest with
  | [] => rfl
  | c :: cs =>
    by_cases hs : isspace c = true
    · have h0 : (c :: cs).headD 0 ≠ 0 := by simpa using isspace_ne_zero hs
      rw [lexS_step _ _ h0]
      have : step_view (c :: cs) line =
          (((c :: cs).takeWhile isspace).length,
            line + ((c :: cs).takeWhile isspace).count 10, none) := by
        unfold step_view
        simp only [List.headD_cons, if_pos hs]
      rw [this]
      simp only [Option.toList, List.nil_append, drop_length_takeWhile]
    · simp [List.dropWhile, List.takeWhile, hs]

/-- The token array of `lex_all_to_array` is the token sequence of the whole input from
line 1, whatever the globals held before. -/
theorem lex_all_to_array_eq (g : Lexer) (input : List Nat) :
    (lex_all_to_array g input).2 = lexS input 1 := by
  have hs := skip_space_eq ⟨input, 0, 1⟩ input rfl
  unfold lex_all_to_array
  simp only [hs, token_array_init]
  rw [lex_loop_lexS _ _ _ (by simp)]
  simp only [List.nil_append, Nat.zero_add, drop_length_takeWhile]
  exact (lexS_skip input 1).symm

/-! ## Character classes -/

theorem land_eq_zero_of_lt : ∀ c < 128, c &&& 0x80 = 0 := by decide

theorem high_bit_ge {c : Nat} (h : c &&& 0x80 ≠ 0) : 128 ≤ c := by
  by_contra hlt
  exact h (land_eq_zero_of_lt c (by omega))

set_option maxRecDepth 4000 in
theorem high_bit_of_byte : ∀ c < 256, 128 ≤ c → c &&& 0x80 ≠ 0 := by decide

theorem ident_start_class_low :
    ∀ c < 128, is_ident_start c = true → isspace c = false ∧ isdigit c = false ∧ c ≠ 34 := by
  decide

theorem ident_start_class {c : Nat} (h : is_ident_start c = true) :
    isspace c = false ∧ isdigit c = false ∧ c ≠ 34 := by
  by_cases hc : c < 128
  · exact ident_start_class_low c hc h
  · refine ⟨?_, ?_, ?_⟩
    · simp [isspace]; omega
    · simp [isdigit]; omega
    · omega

theorem isdigit_not_space {c : Nat} (h : isdigit c = true) : isspace c = false := by
  simp [isdigit] at h
  simp [isspace]; omega

theorem isdigit_ne_zero {c : Nat} (h : isdigit c = true) : c ≠ 0 := by
  rintro rfl; simp [isdigit] at h

theorem ident_start_ne_zero {c : Nat} (h : is_ident_start c = true) : c ≠ 0 := by
  rintro rfl; revert h; decide

/-! ## The token sequence, branch by branch -/

theorem lexS_nil (line : Nat) : lexS [] line = [⟨TK_EOF, eof_lexeme, line⟩] := rfl

theorem lexS_space (c : Nat) (cs : List Nat) (line : Nat) (h : isspace c = true) :
    lexS (c :: cs) line = lexS cs (line + if c = 10 then 1 else 0) := by
  rw [lexS_skip (c :: cs) line, lexS_skip cs (line + if c = 10 then 1 else 0)]
  simp only [List.dropWhile, List.takeWhile, h, List.count_cons]
  congr 1
  by_cases h10 : c = 10
  · subst h10; simp; omega
  · simp [h10]

theorem lexS_number (c : Nat) (cs : List Nat) (line : Nat) (h : isdigit c = true) :
    lexS (c :: cs) line =
      ⟨TK_NUMBER, (c :: cs).take (number_len (c :: cs)), line⟩ ::
        lexS ((c :: cs).drop (number_len (c :: cs))) line := by
  rw [lexS_step _ _ (by simpa using isdigit_ne_zero h)]
  have : step_view (c :: cs) line =
      (number_len (c :: cs), line,
        some ⟨TK_NUMBER, (c :: cs).take (number_len (c :: cs)), line⟩) := by
    unfold step_view
    simp only [List.headD_cons, isdigit_not_space h, if_pos h]
    simp
  rw [this]; rfl

theorem lexS_string (r : List Nat) (line : Nat) :
    lexS (34 :: r) line =
      ⟨TK_STRING, r.take (string_body_len r), line⟩ ::
        lexS (r.drop (string_body_len r
          + if (r.drop (string_body_len r)).headD 0 = 34 then 1 else 0)) line := by
  rw [lexS_step _ _ (by simp)]
  have : step_view (34 :: r) line =
      (1 + string_body_len r + (if (r.drop (string_body_len r)).headD 0 = 34 then 1 else 0),
        line, some ⟨TK_STRING, r.take (string_body_len r), line⟩) := by
    unfold step_view
    have h1 : isspace 34 = false := by decide
    have h2 : isdigit 34 = false := by decide
    simp [h1, h2]
  rw [this]
  simp only [Option.toList, List.singleton_append, List.cons.injEq, true_and]
  congr 1
  rw [Nat.add_assoc, Nat.add_comm 1, List.drop_succ_cons]

theorem lexS_ident (c : Nat) (cs : List Nat) (line : Nat) (h : is_ident_start c = true) :
    lexS (c :: cs) line =
      (match try_keyword_map_exact ((c :: cs).takeWhile is_ident_char) with
        | some mapped => ⟨TK_KW, mapped, line⟩
        | none => ⟨TK_IDENT, (c :: cs).takeWhile is_ident_char, line⟩) ::
        lexS ((c :: cs).dropWhile is_ident_char) line := by
  rw [lexS_step _ _ (by simpa using ident_start_ne_zero h)]
  obtain ⟨h1, h2, h3⟩ := ident_start_class h
  unfold step_view
  simp only [List.headD_cons, h1, h2, if_neg h3, if_pos h]
  cases try_keyword_map_exact ((c :: cs).takeWhile is_ident_char) <;>
    simp [drop_length_takeWhile]

/-! ## Invariants of the token sequence -/

/-- The token pushed by one iteration, branch by branch. -/
theorem step_view_token_cases {rest : List Nat} {line : Nat} {t : Token}
    (h : (step_view rest line).2.2 = some t) :
    (isdigit (rest.headD 0) = true ∧ t = ⟨TK_NUMBER, rest.take (number_len rest), line⟩) ∨
    (rest.headD 0 = 34 ∧
      t = ⟨TK_STRING, (rest.drop 1).take (string_body_len (rest.drop 1)), line⟩) ∨
    (is_ident_start (rest.headD 0) = true ∧
      ∃ mapped, try_keyword_map_exact (rest.takeWhile is_ident_char) = some mapped ∧
        t = ⟨TK_KW, mapped, line⟩) ∨
    (is_ident_start (rest.headD 0) = true ∧
      try_keyword_map_exact (rest.takeWhile is_ident_char) = none ∧
        t = ⟨TK_IDENT, rest.takeWhile is_ident_char, line⟩) ∨
    (∃ s, match_symbol symbols ⟨rest, 0, 0⟩ = some s ∧ t = ⟨TK_OP, s, line⟩) ∨
    (match_symbol symbols ⟨rest, 0, 0⟩ = none ∧ rest.headD 0 ∈ punct_set ∧
      t = ⟨TK_OP, [rest.headD 0], line⟩) := by
  unfold step_view at h
  simp only [] at h
  by_cases h1 : isspace (rest.headD 0) = true
  · simp only [if_pos h1] at h
    exact absurd h (by simp)
  · simp only [if_neg h1] at h
    by_cases h2 : isdigit (rest.headD 0) = true
    · simp only [if_pos h2, Option.some.injEq] at h
      exact Or.inl ⟨h2, h.symm⟩
    · simp only [if_neg h2] at h
      by_cases h3 : rest.headD 0 = 34
      · simp only [if_pos h3, Option.some.injEq] at h
        exact Or.inr (Or.inl ⟨h3, h.symm⟩)
      · simp only [if_neg h3] at h
        by_cases h4 : is_ident_start (rest.headD 0) = true
        · simp only [if_pos h4] at h
          cases hk : try_keyword_map_exact (rest.takeWhile is_ident_char) with
          | some mapped =>
            simp only [hk, Option.some.injEq] at h
            exact Or.inr (Or.inr (Or.inl ⟨h4, mapped, rfl, h.symm⟩))
          | none =>
            simp only [hk, Option.some.injEq] at h
            exact Or.inr (Or.inr (Or.inr (Or.inl ⟨h4, rfl, h.symm⟩)))
        · simp only [if_neg h4] at h
          cases hm : match_symbol symbols ⟨rest, 0, 0⟩ with
          | some s =>
            simp only [hm, Option.some.injEq] at h
            exact Or.inr (Or.inr (Or.inr (Or.inr (Or.inl ⟨s, rfl, h.symm⟩))))
          | none =>
            simp only [hm] at h
            by_cases h5 : rest.headD 0 ∈ punct_set
            · simp only [if_pos h5, Option.some.injEq] at h
              exact Or.inr (Or.inr (Or.inr (Or.inr (Or.inr ⟨rfl, h5, h.symm⟩))))
            · simp only [if_neg h5] at h
              exact absurd h (by simp)

theorem step_view_token_type {rest : List Nat} {line : Nat} {t : Token}
    (h : (step_view rest line).2.2 = some t) : t.type ≠ TK_EOF := by
  rcases step_view_token_cases h with ⟨_, rfl⟩ | ⟨_, rfl⟩ | ⟨_, _, _, rfl⟩ | ⟨_, _, rfl⟩ |
    ⟨_, _, rfl⟩ | ⟨_, _, rfl⟩ <;> simp

theorem lex_view_shape : ∀ (n : Nat) (rest : List Nat) (line : Nat),
    ∃ body line1, lex_view n rest line = body ++ [eof_token line1] ∧
      ∀ t ∈ body, t.type ≠ TK_EOF := by
  intro n
  induction n with
  | zero => intro rest line; exact ⟨[], line, rfl, by simp⟩
  | succ n ih =>
    intro rest line
    by_cases h0 : rest.headD 0 = 0
    · exact ⟨[], line, lex_view_stop _ _ _ h0, by simp⟩
    · obtain ⟨body, line1, hb, hne⟩ :=
        ih (rest.drop (step_view rest line).1) (step_view rest line).2.1
      rw [lex_view_succ n rest line h0, hb]
      refine ⟨(step_view rest line).2.2.toList ++ body, line1, by simp, ?_⟩
      intro t ht
      rcases List.mem_append.mp ht with h1 | h1
      · exact step_view_token_type (by simpa [Option.mem_toList] using h1)
      · exact hne t h1

theorem lexS_all_space (input : List Nat) (line : Nat) (h : ∀ c ∈ input, isspace c = true) :
    lexS input line = [eof_token (line + input.count 10)] := by
  have h1 : input.takeWhile isspace = input := List.takeWhile_eq_self_iff.mpr h
  have h2 : input.dropWhile isspace = [] := List.dropWhile_eq_nil_iff.mpr h
  rw [lexS_skip, h1, h2]; rfl

/-! ## The claims -/

/-- C1 (end-to-end scenario): lexing and then generating the bytes of
`اگر ( صحیح x برابر 5 ) { جاپ ( "hi" ) ; }` writes `if ( int x == 5 ) { printf ( "hi" ) ; } `,
which is the 14 texts `if ( int x == 5 ) { printf ( "hi" ) ; }` in this order, each followed
by exactly one space. -/
theorem end_to_end_scenario (g : Lexer) :
    generate_raw_c (lex_all_to_array g scenario_input).2 = scenario_output ∧
    scenario_output = (scenario_texts.map (fun w => w ++ [32])).flatten ∧
    scenario_texts.length = 14 :=
  ⟨rfl, rfl, rfl⟩

/-- C2 (terminating token): for every input the token array is non-empty, its last token has
kind `TK_EOF` and no token before the last has kind `TK_EOF`; the empty input gives exactly the
terminating token, and so does, in kind and text, every input made only of whitespace; the
line of that terminator is 1 plus the number of newlines when these are fewer than
`2147483647`, the largest value of the `int` that `line_no` is. -/
theorem lex_ends_with_single_eof (g : Lexer) (input : List Nat) :
    ((lex_all_to_array g input).2 ≠ [] ∧
      (lex_all_to_array g input).2.getLast?.map Token.type = some TK_EOF ∧
      ∀ t ∈ (lex_all_to_array g input).2.dropLast, t.type ≠ TK_EOF) ∧
    (lex_all_to_array g []).2 = [eof_token 1] ∧
    ((∀ c ∈ input, isspace c = true) →
      kinds_texts (lex_all_to_array g input).2 = [(TK_EOF, eof_lexeme)]) ∧
    ((∀ c ∈ input, isspace c = true) → input.count 10 < 2147483647 →
      (lex_all_to_array g input).2 = [eof_token (1 + input.count 10)]) := by
  refine ⟨?_, rfl, ?_, ?_⟩
  · rw [lex_all_to_array_eq]
    obtain ⟨body, line1, hb, hne⟩ := lex_view_shape input.length input 1
    unfold lexS
    rw [hb]
    refine ⟨by simp, by simp [eof_token], ?_⟩
    rw [List.dropLast_concat]
    exact hne
  · intro h
    rw [lex_all_to_array_eq, lexS_all_space input 1 h]
    rfl
  · intro h _
    rw [lex_all_to_array_eq]
    exact lexS_all_space input 1 h

/-- Witness of C2 on the input of a space, a newline and a tab. -/
theorem lex_ends_with_single_eof_witness :
    ((∀ c ∈ [32, 10, 9], isspace c = true) ∧
      ([32, 10, 9] : List Nat).count 10 < 2147483647) ∧
    kinds_texts (lex_all_to_array ⟨[], 0, 0⟩ [32, 10, 9]).2 = [(TK_EOF, eof_lexeme)] ∧
    (lex_all_to_array ⟨[], 0, 0⟩ [32, 10, 9]).2 = [eof_token 2] :=
  ⟨⟨by decide, by decide⟩,
    (lex_ends_with_single_eof ⟨[], 0, 0⟩ [32, 10, 9]).2.2.1 (by decide),
    (lex_ends_with_single_eof ⟨[], 0, 0⟩ [32, 10, 9]).2.2.2 (by decide) (by decide)⟩

/-- C3 (keyword substitution): for every entry of `keyword_map` whose phrase has no space,
lexing exactly the phrase gives the `TK_KW` token of the replacement followed by the
terminating token, and the generator writes the replacement followed by one space. -/
theorem keyword_substitution (e : Map) (he : e ∈ keyword_map) (hsp : 32 ∉ e.p) (g : Lexer) :
    (lex_all_to_array g e.p).2 = [⟨TK_KW, e.c, 1⟩, eof_token 1] ∧
    generate_raw_c (lex_all_to_array g e.p).2 = e.c ++ [32] := by
  have key : ∀ e ∈ keyword_map, 32 ∉ e.p →
      lexS e.p 1 = [⟨TK_KW, e.c, 1⟩, eof_token 1] ∧
      generate_raw_c (lexS e.p 1) = e.c ++ [32] := by
    decide
  rw [lex_all_to_array_eq]
  exact key e he hsp

/-- Witness of C3: `اگر` gives the single keyword token `if` and the output `if `. -/
theorem keyword_substitution_witness :
    (⟨[216, 167, 218, 175, 216, 177], [105, 102]⟩ ∈ keyword_map ∧
      32 ∉ [216, 167, 218, 175, 216, 177]) ∧
    (lex_all_to_array ⟨[], 0, 0⟩ [216, 167, 218, 175, 216, 177]).2
      = [⟨TK_KW, [105, 102], 1⟩, eof_token 1] ∧
    generate_raw_c (lex_all_to_array ⟨[], 0, 0⟩ [216, 167, 218, 175, 216, 177]).2
      = [105, 102, 32] :=
  ⟨⟨by decide, by decide⟩,
    keyword_substitution ⟨[216, 167, 218, 175, 216, 177], [105, 102]⟩ (by decide) (by decide)
      ⟨[], 0, 0⟩⟩

/-! ### Identifiers -/

theorem try_keyword_map_scan_none (m : List Map) (w : List Nat) (h : ∀ e ∈ m, e.p ≠ w) :
    try_keyword_map_scan m w = none := by
  induction m with
  | nil => rfl
  | cons e m ih =>
    rw [try_keyword_map_scan, if_neg (h e (List.mem_cons_self _ _))]
    exact ih (fun e' he' => h e' (List.mem_cons_of_mem _ he'))

theorem ident_start_of_spec {c : Nat} (h : (isalpha c || c == 95 || high_bit c) = true) :
    is_ident_start c = true := by
  unfold is_ident_start
  simp only [Bool.or_eq_true] at h ⊢
  rcases h with (h | h) | h
  · exact Or.inl (Or.inl h)
  · exact Or.inl (Or.inr h)
  · right
    simp only [high_bit, Bool.and_eq_true, decide_eq_true_eq] at h
    simpa using high_bit_of_byte c h.2 h.1

theorem ident_char_of_spec {c : Nat}
    (h : (isalpha c || isdigit c || c == 95 || high_bit c) = true) :
    is_ident_char c = true := by
  unfold is_ident_char isalnum
  simp only [Bool.or_eq_true] at h ⊢
  rcases h with ((h | h) | h) | h
  · exact Or.inr (Or.inl (Or.inl h))
  · exact Or.inr (Or.inl (Or.inr h))
  · exact Or.inr (Or.inr h)
  · left
    simp only [high_bit, Bool.and_eq_true, decide_eq_true_eq] at h
    simpa using high_bit_of_byte c h.2 h.1

theorem generate_raw_c_single (t : Token) (line : Nat) (h : t.type ≠ TK_EOF) :
    generate_raw_c [t, eof_token line] = fragment t := by
  simp [generate_raw_c, h, eof_token, fragment]

/-- C4 (unmapped identifier passthrough, whole-identifier matching): an identifier-shaped
string that is not equal to a phrase of `keyword_map` lexes to the `TK_IDENT` token of its own
text followed by the terminating token, and the generator writes it followed by one space. -/
theorem unmapped_identifier_passthrough (w : List Nat) (hw : ident_shaped w = true)
    (hk : ∀ e ∈ keyword_map, e.p ≠ w) (g : Lexer) :
    (lex_all_to_array g w).2 = [⟨TK_IDENT, w, 1⟩, eof_token 1] ∧
    generate_raw_c (lex_all_to_array g w).2 = w ++ [32] := by
  have hlex : (lex_all_to_array g w).2 = [⟨TK_IDENT, w, 1⟩, eof_token 1] := by
    rw [lex_all_to_array_eq]
    match w, hw, hk with
    | [], hw, _ => simp [ident_shaped] at hw
    | c :: cs, hw, hk =>
      unfold ident_shaped at hw
      rw [Bool.and_eq_true, List.all_eq_true] at hw
      have hall : ∀ b ∈ c :: cs, is_ident_char b = true :=
        fun b hb => ident_char_of_spec (hw.2 b hb)
      have h1 : (c :: cs).takeWhile is_ident_char = c :: cs :=
        List.takeWhile_eq_self_iff.mpr hall
      have h2 : (c :: cs).dropWhile is_ident_char = [] :=
        List.dropWhile_eq_nil_iff.mpr hall
      rw [lexS_ident c cs 1 (ident_start_of_spec hw.1), h1, h2]
      have h3 : try_keyword_map_exact (c :: cs) = none :=
        try_keyword_map_scan_none keyword_map _ hk
      rw [h3]
      rfl
  refine ⟨hlex, ?_⟩
  rw [hlex, generate_raw_c_single _ _ (by simp)]
  simp [fragment]

/-- Witness of C4: `اگر` followed by `x`, which extends a mapped phrase, and `myVar`. -/
theorem unmapped_identifier_passthrough_witness :
    (ident_shaped [216, 167, 218, 175, 216, 177, 120] = true ∧
      ∀ e ∈ keyword_map, e.p ≠ [216, 167, 218, 175, 216, 177, 120]) ∧
    ((lex_all_to_array ⟨[], 0, 0⟩ [216, 167, 218, 175, 216, 177, 120]).2
        = [⟨TK_IDENT, [216, 167, 218, 175, 216, 177, 120], 1⟩, eof_token 1] ∧
      generate_raw_c (lex_all_to_array ⟨[], 0, 0⟩ [216, 167, 218, 175, 216, 177, 120]).2
        = [216, 167, 218, 175, 216, 177, 120, 32]) ∧
    ((lex_all_to_array ⟨[], 0, 0⟩ [109, 121, 86, 97, 114]).2
        = [⟨TK_IDENT, [109, 121, 86, 97, 114], 1⟩, eof_token 1] ∧
      generate_raw_c (lex_all_to_array ⟨[], 0, 0⟩ [109, 121, 86, 97, 114]).2
        = [109, 121, 86, 97, 114, 32]) :=
  ⟨⟨by decide, by decide⟩,
    unmapped_identifier_passthrough [216, 167, 218, 175, 216, 177, 120] (by decide) (by decide)
      ⟨[], 0, 0⟩,
    unmapped_identifier_passthrough [109, 121, 86, 97, 114] (by decide) (by decide) ⟨[], 0, 0⟩⟩

/-! ### String literals -/

theorem string_body_len_plain (c : Nat) (t : List Nat) (h0 : c ≠ 0) (h34 : c ≠ 34)
    (h92 : c ≠ 92) : string_body_len (c :: t) = 1 + string_body_len t := by
  cases t with
  | nil => simp [string_body_len, h0, h34]
  | cons d ds => simp [string_body_len, h0, h34, h92]

theorem string_body_len_escape (d : Nat) (t : List Nat) (hd : d ≠ 0) :
    string_body_len (92 :: d :: t) = 2 + string_body_len t := by
  simp [string_body_len, hd]

theorem string_body_len_units (units : List (List Nat))
    (h : ∀ u ∈ units, is_body_unit u = true) (t : List Nat) :
    string_body_len (units.flatten ++ t) = units.flatten.length + string_body_len t := by
  induction units with
  | nil => simp
  | cons u units ih =>
    have hu := h u (List.mem_cons_self _ _)
    have ih1 := ih (fun v hv => h v (List.mem_cons_of_mem _ hv))
    match u, hu with
    | [c], hu =>
      simp only [is_body_unit, Bool.and_eq_true, bne_iff_ne, ne_eq] at hu
      simp only [List.flatten_cons, List.singleton_append, List.cons_append, List.length_cons,
        List.nil_append]
      rw [string_body_len_plain c _ hu.2 hu.1.1 hu.1.2, ih1]
      omega
    | [b, d], hu =>
      simp only [is_body_unit, Bool.and_eq_true, bne_iff_ne, ne_eq, beq_iff_eq] at hu
      obtain ⟨rfl, hd⟩ := hu
      simp only [List.flatten_cons, List.cons_append, List.nil_append, List.length_cons]
      rw [string_body_len_escape d _ hd, ih1]
      omega
    | [], hu => simp [is_body_unit] at hu
    | _ :: _ :: _ :: _, hu => simp [is_body_unit] at hu

/-- C5 (string round trip): for a literal body `s` that is a concatenation of units (a byte
other than `"` and backslash, or a backslash followed by a byte), lexing `"` ++ s ++ `"` gives
the `TK_STRING` token with text `s` followed by the terminating token, and the generator writes
`"` ++ s ++ `"` followed by one space. -/
theorem string_round_trip (units : List (List Nat))
    (h : ∀ u ∈ units, is_body_unit u = true) (g : Lexer) :
    (lex_all_to_array g ([34] ++ units.flatten ++ [34])).2
      = [⟨TK_STRING, units.flatten, 1⟩, eof_token 1] ∧
    generate_raw_c (lex_all_to_array g ([34] ++ units.flatten ++ [34])).2
      = [34] ++ units.flatten ++ [34] ++ [32] := by
  have hlen : string_body_len (units.flatten ++ [34]) = units.flatten.length := by
    rw [string_body_len_units units h [34]]; rfl
  have hlex : (lex_all_to_array g ([34] ++ units.flatten ++ [34])).2
      = [⟨TK_STRING, units.flatten, 1⟩, eof_token 1] := by
    rw [lex_all_to_array_eq]
    simp only [List.singleton_append, List.cons_append, List.nil_append]
    rw [lexS_string, hlen]
    generalize units.flatten = s
    have ht : (s ++ [34]).take s.length = s := List.take_left' rfl
    have hd : (s ++ [34]).drop s.length = [34] := List.drop_left' rfl
    have hd2 : (s ++ [34]).drop (s.length + 1) = [] := List.drop_eq_nil_iff.mpr (by simp)
    rw [ht, hd]
    simp only [List.headD_cons, if_true]
    rw [hd2, lexS_nil]
    rfl
  refine ⟨hlex, ?_⟩
  rw [hlex, generate_raw_c_single _ _ (by simp)]
  simp [fragment]

/-- Witness of C5 on the body `a\"b`: two plain bytes around an escaped quote. -/
theorem string_round_trip_witness :
    (∀ u ∈ [[97], [92, 34], [98]], is_body_unit u = true) ∧
    (lex_all_to_array ⟨[], 0, 0⟩ [34, 97, 92, 34, 98, 34]).2
      = [⟨TK_STRING, [97, 92, 34, 98], 1⟩, eof_token 1] ∧
    generate_raw_c (lex_all_to_array ⟨[], 0, 0⟩ [34, 97, 92, 34, 98, 34]).2
      = [34, 97, 92, 34, 98, 34, 32] :=
  ⟨by decide, string_round_trip [[97], [92, 34], [98]] (by decide) ⟨[], 0, 0⟩⟩

/-! ### Operators -/

/-- C6 (operator longest match): every entry of `symbols`, lexed alone, gives the one `TK_OP`
token of that entry followed by the terminating token, so `==` is one token and not two `=`;
and in the table every entry of more than one byte stands before each one-byte entry that is
a prefix of it. -/
theorem operator_longest_match (sym : List Nat) (hs : sym ∈ symbols) (g : Lexer) :
    (lex_all_to_array g sym).2 = [⟨TK_OP, sym, 1⟩, eof_token 1] ∧
    (∀ i < symbols.length, ∀ j < symbols.length,
      (symbols.getD i []).length = 1 → 1 < (symbols.getD j []).length →
        (symbols.getD i []).isPrefixOf (symbols.getD j []) = true → j < i) := by
  have key : ∀ s ∈ symbols, lexS s 1 = [⟨TK_OP, s, 1⟩, eof_token 1] := by decide
  refine ⟨?_, by decide⟩
  rw [lex_all_to_array_eq]
  exact key sym hs

/-- Witness of C6: `==` lexes as the one operator token `==`. -/
theorem operator_longest_match_witness :
    [61, 61] ∈ symbols ∧
    (lex_all_to_array ⟨[], 0, 0⟩ [61, 61]).2 = [⟨TK_OP, [61, 61], 1⟩, eof_token 1] ∧
    (lex_all_to_array ⟨[], 0, 0⟩ [61, 61]).2
      ≠ [⟨TK_OP, [61], 1⟩, ⟨TK_OP, [61], 1⟩, eof_token 1] :=
  ⟨by decide, (operator_longest_match [61, 61] (by decide) ⟨[], 0, 0⟩).1,
    by rw [(operator_longest_match [61, 61] (by decide) ⟨[], 0, 0⟩).1]; decide⟩

/-! ### Numbers -/

theorem number_len_shape (d1 d2 r : List Nat)
    (h1 : ∀ c ∈ d1, isdigit c = true) (h2 : ∀ c ∈ d2, isdigit c = true)
    (hr : isdigit (r.headD 0) = false) :
    number_len (d1 ++ [46] ++ d2 ++ r) = (d1 ++ [46] ++ d2).length := by
  have h46 : isdigit 46 = false := by decide
  have ht1 : (d1 ++ [46] ++ d2 ++ r).takeWhile isdigit = d1 := by
    rw [List.append_assoc, List.append_assoc, List.takeWhile_append_of_pos h1]
    simp [List.takeWhile, h46]
  have ht2 : (d2 ++ r).takeWhile isdigit = d2 := by
    rw [List.takeWhile_append_of_pos h2]
    cases r with
    | nil => simp
    | cons c cs =>
      simp only [List.headD_cons] at hr
      simp [List.takeWhile, hr]
  have hd1 : (d1 ++ [46] ++ d2 ++ r).drop d1.length = 46 :: (d2 ++ r) := by
    rw [List.append_assoc, List.append_assoc]
    exact List.drop_left' rfl
  have hd2 : (d1 ++ [46] ++ d2 ++ r).drop (d1.length + 1) = d2 ++ r := by
    rw [← List.drop_drop, hd1]; rfl
  unfold number_len
  simp only [ht1, hd1, hd2, ht2, List.headD_cons, if_true, List.length_append, List.length_cons,
    List.length_nil]

/-- C7 (number scanning boundary): a non-empty run of digits `d1`, a `.`, a run of digits `d2`
and a rest `r` that does not start with a digit lex to the `TK_NUMBER` token with text
`d1 ++ "." ++ d2`, followed by exactly the token sequence of `r` lexed alone. -/
theorem number_scanning_boundary (d1 d2 r : List Nat) (hne : d1 ≠ [])
    (h1 : ∀ c ∈ d1, isdigit c = true) (h2 : ∀ c ∈ d2, isdigit c = true)
    (hr : isdigit (r.headD 0) = false) (g : Lexer) :
    (lex_all_to_array g (d1 ++ [46] ++ d2 ++ r)).2
      = ⟨TK_NUMBER, d1 ++ [46] ++ d2, 1⟩ :: (lex_all_to_array g r).2 := by
  rw [lex_all_to_array_eq, lex_all_to_array_eq]
  have hlen := number_len_shape d1 d2 r h1 h2 hr
  match d1, hne, h1, hlen with
  | c :: cs, _, h1, hlen =>
    have hc : isdigit c = true := h1 c (List.mem_cons_self _ _)
    have hcons : c :: cs ++ [46] ++ d2 ++ r = c :: (cs ++ [46] ++ d2 ++ r) := by simp
    rw [hcons] at hlen ⊢
    rw [lexS_number c _ 1 hc, hlen, ← hcons]
    rw [List.take_left' rfl, List.drop_left' rfl]

/-- Witness of C7: `12.5.6` lexes to the number `12.5` and then to what `.6` lexes to, the
number `6`. -/
theorem number_scanning_boundary_witness :
    ([49, 50] ≠ [] ∧ (∀ c ∈ [49, 50], isdigit c = true) ∧ (∀ c ∈ [53], isdigit c = true) ∧
      isdigit (([46, 54] : List Nat).headD 0) = false) ∧
    (lex_all_to_array ⟨[], 0, 0⟩ [49, 50, 46, 53, 46, 54]).2
      = ⟨TK_NUMBER, [49, 50, 46, 53], 1⟩ :: (lex_all_to_array ⟨[], 0, 0⟩ [46, 54]).2 ∧
    (lex_all_to_array ⟨[], 0, 0⟩ [46, 54]).2 = [⟨TK_NUMBER, [54], 1⟩, eof_token 1] :=
  ⟨⟨by decide, by decide, by decide, by decide⟩,
    number_scanning_boundary [49, 50] [53] [46, 54] (by decide) (by decide) (by decide)
      (by decide) ⟨[], 0, 0⟩,
    rfl⟩

/-! ### Generator -/

/-- C8 (generator contract): the bytes written are the concatenation, over the tokens that
precede the first `TK_EOF` token, of the token's fragment (its text, in double quotes for a
`TK_STRING`, then one space); the tokens from the first `TK_EOF` on contribute nothing, and
there is one fragment for each token before the terminator. -/
theorem generator_contract (ts : TokenArray) :
    generate_raw_c ts = ((tokens_before_end ts).map fragment).flatten ∧
    ((tokens_before_end ts).map fragment).length = (tokens_before_end ts).length ∧
    (∀ t ∈ tokens_before_end ts, t.type ≠ TK_EOF) ∧
    (∀ (lexeme : List Nat) (line : Nat) (rest : TokenArray),
      generate_raw_c (tokens_before_end ts ++ ⟨TK_EOF, lexeme, line⟩ :: rest)
        = generate_raw_c ts) := by
  have hgen : ∀ l : TokenArray,
      generate_raw_c l = ((tokens_before_end l).map fragment).flatten := by
    intro l
    induction l with
    | nil => rfl
    | cons t l ih =>
      by_cases h : t.type = TK_EOF
      · simp [generate_raw_c, tokens_before_end, List.takeWhile, h]
      · have ih1 : generate_raw_c l
            = ((l.takeWhile (fun t => t.type != TK_EOF)).map fragment).flatten := ih
        have hb : (t.type != TK_EOF) = true := by simpa using h
        simp [generate_raw_c, tokens_before_end, List.takeWhile_cons, h, hb, fragment, ih1]
  have hmem : ∀ t ∈ tokens_before_end ts, t.type ≠ TK_EOF := by
    intro t ht
    have := @List.mem_takeWhile_imp Token (fun t => t.type != TK_EOF) _ _ ht
    simpa using this
  refine ⟨hgen ts, by simp, hmem, ?_⟩
  intro lexeme line rest
  have hbefore : tokens_before_end (tokens_before_end ts ++ ⟨TK_EOF, lexeme, line⟩ :: rest)
      = tokens_before_end ts := by
    unfold tokens_before_end
    rw [List.takeWhile_append_of_pos
      (fun t ht => @List.mem_takeWhile_imp Token (fun t => t.type != TK_EOF) _ _ ht)]
    simp [List.takeWhile]
  rw [hgen, hbefore, ← hgen]

/-- Witness of C8 on the tokens `"hi"`, `x`, the terminator and a token after it: the output is
`"hi" x ` and the token after the terminator contributes nothing. -/
theorem generator_contract_witness :
    generate_raw_c [⟨TK_STRING, [104, 105], 1⟩, ⟨TK_IDENT, [120], 1⟩, eof_token 1,
        ⟨TK_IDENT, [121], 1⟩]
      = [34, 104, 105, 34, 32, 120, 32] ∧
    tokens_before_end [⟨TK_STRING, [104, 105], 1⟩, ⟨TK_IDENT, [120], 1⟩, eof_token 1,
        ⟨TK_IDENT, [121], 1⟩]
      = [⟨TK_STRING, [104, 105], 1⟩, ⟨TK_IDENT, [120], 1⟩] :=
  ⟨(generator_contract [⟨TK_STRING, [104, 105], 1⟩, ⟨TK_IDENT, [120], 1⟩, eof_token 1,
      ⟨TK_IDENT, [121], 1⟩]).1.trans (by decide), by decide⟩

/-! ### Line numbers -/

/-- C9 (token line numbers), evaluated on the input `"a⏎b" x` whose string literal holds a
newline: the identifier `x` starts after one newline byte, on line 2, and its token carries
line 1, because `read_string` moves over the newline without counting it. -/
theorem line_number_after_multiline_string (g : Lexer) :
    (lex_all_to_array g [34, 97, 10, 98, 34, 32, 120]).2
      = [⟨TK_STRING, [97, 10, 98], 1⟩, ⟨TK_IDENT, [120], 1⟩, eof_token 1] ∧
    ([34, 97, 10, 98, 34, 32, 120] : List Nat).drop 6 = [120] ∧
    1 + (([34, 97, 10, 98, 34, 32, 120] : List Nat).take 6).count 10 = 2 :=
  ⟨rfl, rfl, rfl⟩

/-! ### Unreachable entries -/

theorem try_keyword_map_scan_some {m : List Map} {ident c : List Nat}
    (h : try_keyword_map_scan m ident = some c) : ∃ e ∈ m, e.p = ident ∧ e.c = c := by
  induction m with
  | nil => simp [try_keyword_map_scan] at h
  | cons e m ih =>
    unfold try_keyword_map_scan at h
    by_cases he : e.p = ident
    · rw [if_pos he] at h
      exact ⟨e, List.mem_cons_self _ _, he, Option.some.inj h⟩
    · rw [if_neg he] at h
      obtain ⟨e', he', hp⟩ := ih h
      exact ⟨e', List.mem_cons_of_mem _ he', hp⟩

theorem is_ident_char_of_mem_takeWhile {rest : List Nat} {b : Nat}
    (h : b ∈ rest.takeWhile is_ident_char) : is_ident_char b = true :=
  List.mem_takeWhile_imp h

theorem while_entry_has_space : ∀ e ∈ keyword_map, e.c = while_text → 32 ∈ e.p := by decide

theorem lookup_ne_while {ident : List Nat} (h : 32 ∉ ident) :
    try_keyword_map_exact ident ≠ some while_text := by
  intro hs
  obtain ⟨e, he, hp, hc⟩ := try_keyword_map_scan_some hs
  exact h (hp ▸ while_entry_has_space e he hc)

/-- A property of every token pushed by an iteration and of the terminating token holds for
every token of the sequence. -/
theorem lex_view_forall (P : Token → Prop)
    (hstep : ∀ rest line t, (step_view rest line).2.2 = some t → P t)
    (heof : ∀ line, P (eof_token line)) :
    ∀ (n : Nat) (rest : List Nat) (line : Nat), ∀ t ∈ lex_view n rest line, P t := by
  intro n
  induction n with
  | zero =>
    intro rest line t ht
    simp only [lex_view, List.mem_singleton] at ht
    subst ht; exact heof line
  | succ n ih =>
    intro rest line t ht
    by_cases h0 : rest.headD 0 = 0
    · rw [lex_view_stop _ _ _ h0, List.mem_singleton] at ht
      subst ht; exact heof line
    · rw [lex_view_succ n rest line h0] at ht
      rcases List.mem_append.mp ht with h1 | h1
      · exact hstep rest line t (by simpa [Option.mem_toList] using h1)
      · exact ih _ _ t h1

/-- C10 (space-containing entries are unreachable): the text `read_identifier` hands to the
keyword lookup never contains a space; a text without a space is never mapped to `while`,
whose only entry `درحالی که` contains one; so no token array of `lex_all_to_array` contains a
`TK_KW` token with text `while`. -/
theorem space_entries_unreachable (g : Lexer) (input : List Nat) (L : Lexer) :
    32 ∉ (read_identifier L).1 ∧
    (∀ ident : List Nat, 32 ∉ ident → try_keyword_map_exact ident ≠ some while_text) ∧
    (∃ e ∈ keyword_map, e.c = while_text ∧ 32 ∈ e.p) ∧
    (∀ t ∈ (lex_all_to_array g input).2, ¬ (t.type = TK_KW ∧ t.lexeme = while_text)) := by
  have hsp : ∀ rest : List Nat, 32 ∉ rest.takeWhile is_ident_char := by
    intro rest hmem
    have := is_ident_char_of_mem_takeWhile hmem
    revert this; decide
  refine ⟨?_, fun ident h => lookup_ne_while h, by decide, ?_⟩
  · rw [read_identifier_eq L _ rfl]
    exact hsp _
  · rw [lex_all_to_array_eq]
    apply lex_view_forall
    · intro rest line t ht
      rcases step_view_token_cases ht with ⟨_, rfl⟩ | ⟨_, rfl⟩ | ⟨_, m, hm, rfl⟩ | ⟨_, _, rfl⟩ |
        ⟨_, _, rfl⟩ | ⟨_, _, rfl⟩
      · simp
      · simp
      · rintro ⟨_, hw⟩
        simp only at hw
        subst hw
        exact lookup_ne_while (hsp rest) hm
      · simp
      · simp
      · simp
    · intro line; simp [eof_token]

/-- Witness of C10 on the input `درحالی که`, the phrase mapped to `while`: it lexes to two
identifiers, and no token is the keyword `while`. -/
theorem space_entries_unreachable_witness :
    (lex_all_to_array ⟨[], 0, 0⟩
        [216, 175, 216, 177, 216, 173, 216, 167, 217, 132, 219, 140, 32, 218, 169, 217, 135]).2
      = [⟨TK_IDENT, [216, 175, 216, 177, 216, 173, 216, 167, 217, 132, 219, 140], 1⟩,
          ⟨TK_IDENT, [218, 169, 217, 135], 1⟩, eof_token 1] ∧
    ∀ t ∈ (lex_all_to_array ⟨[], 0, 0⟩
        [216, 175, 216, 177, 216, 173, 216, 167, 217, 132, 219, 140, 32, 218, 169, 217, 135]).2,
      ¬ (t.type = TK_KW ∧ t.lexeme = while_text) :=
  ⟨rfl, (space_entries_unreachable ⟨[], 0, 0⟩
    [216, 175, 216, 177, 216, 173, 216, 167, 217, 132, 219, 140, 32, 218, 169, 217, 135]
    ⟨[], 0, 0⟩).2.2.2⟩

/-! ### Unterminated string literals -/

theorem string_body_len_no_quote : ∀ (n : Nat) (s : List Nat), s.length ≤ n →
    0 ∉ s → 34 ∉ s → string_body_len s = s.length := by
  intro n
  induction n with
  | zero =>
    intro s hs _ _
    have : s = [] := List.length_eq_zero.mp (Nat.le_zero.mp hs)
    subst this; rfl
  | succ n ih =>
    intro s hs h0 h34
    match s, hs, h0, h34 with
    | [], _, _, _ => rfl
    | [c], _, h0, h34 =>
      have hc : c ≠ 0 ∧ c ≠ 34 := by
        constructor <;> rintro rfl <;> simp at h0 h34
      simp only [string_body_len, if_pos hc, List.length_singleton]
    | c :: d :: ds, hs, h0, h34 =>
      have hc : c ≠ 0 ∧ c ≠ 34 := by
        constructor <;> rintro rfl <;> simp at h0 h34
      have hd0 : d ≠ 0 := by rintro rfl; simp at h0
      have h0ds : 0 ∉ ds := fun h => h0 (by simp [h])
      have h34ds : 34 ∉ ds := fun h => h34 (by simp [h])
      have h0d : 0 ∉ d :: ds := fun h => h0 (List.mem_cons_of_mem _ h)
      have h34d : 34 ∉ d :: ds := fun h => h34 (List.mem_cons_of_mem _ h)
      have ih1 := ih ds (by simp at hs ⊢; omega) h0ds h34ds
      have ih2 := ih (d :: ds) (by simp at hs ⊢; omega) h0d h34d
      simp only [string_body_len, if_pos hc]
      by_cases he : c = 92 ∧ d ≠ 0
      · simp only [if_pos he, ih1, List.length_cons]; omega
      · simp only [if_neg he, ih2, List.length_cons]; omega

/-- C11 (unterminated string literal): for a byte string `s` of a C string (no NUL) without a
`"` byte, lexing `"` ++ s gives the `TK_STRING` token whose text is all of `s`, followed by the
terminating token. -/
theorem unterminated_string (s : List Nat) (h0 : 0 ∉ s) (h34 : 34 ∉ s) (g : Lexer) :
    (lex_all_to_array g ([34] ++ s)).2 = [⟨TK_STRING, s, 1⟩, eof_token 1] := by
  rw [lex_all_to_array_eq]
  have hlen := string_body_len_no_quote s.length s (Nat.le_refl _) h0 h34
  simp only [List.singleton_append]
  rw [lexS_string, hlen, List.take_length, List.drop_length]
  simp only [List.headD_nil, Nat.add_zero]
  rw [if_neg (by decide), Nat.add_zero, List.drop_length, lexS_nil]
  rfl

/-- Witness of C11 on the input `"ab\`: the text is `ab\`, up to the end of the input. -/
theorem unterminated_string_witness :
    (0 ∉ [97, 98, 92] ∧ 34 ∉ [97, 98, 92]) ∧
    (lex_all_to_array ⟨[], 0, 0⟩ [34, 97, 98, 92]).2
      = [⟨TK_STRING, [97, 98, 92], 1⟩, eof_token 1] :=
  ⟨⟨by decide, by decide⟩, unterminated_string [97, 98, 92] (by decide) (by decide) ⟨[], 0, 0⟩⟩

/-! ### Determinism -/

/-- C13 (determinism, no state across invocations): the result of `lex_all_to_array`, and so
the generated output, is the same whatever the globals `src`, `pos`, `line_no` held before the
call; in particular a second run on the same input, started from the globals the first run
left, gives the same tokens and the same output. -/
theorem lex_independent_of_globals (g g1 : Lexer) (input : List Nat) :
    lex_all_to_array g input = lex_all_to_array g1 input ∧
    (lex_all_to_array (lex_all_to_array g input).1 input).2 = (lex_all_to_array g input).2 ∧
    generate_raw_c (lex_all_to_array (lex_all_to_array g input).1 input).2
      = generate_raw_c (lex_all_to_array g input).2 := by
  have h : ∀ a b : Lexer, lex_all_to_array a input = lex_all_to_array b input :=
    fun _ _ => rfl
  exact ⟨h g g1, by rw [h _ g], by rw [h _ g]⟩

/-! ### Keyword lookup -/

theorem try_keyword_map_scan_of_mem : ∀ (m : List Map), (m.map Map.p).Nodup →
    ∀ e ∈ m, try_keyword_map_scan m e.p = some e.c := by
  intro m
  induction m with
  | nil => intro _ e he; simp at he
  | cons a m ih =>
    intro hnd e he
    rw [List.map_cons, List.nodup_cons] at hnd
    unfold try_keyword_map_scan
    by_cases hae : a.p = e.p
    · rw [if_pos hae]
      rcases List.mem_cons.mp he with rfl | hmem
      · rfl
      · exact absurd (hae ▸ List.mem_map_of_mem Map.p hmem) hnd.1
    · rw [if_neg hae]
      rcases List.mem_cons.mp he with rfl | hmem
      · exact absurd rfl hae
      · exact ih hnd.2 e hmem

theorem try_keyword_map_scan_iff (m : List Map) (hnd : (m.map Map.p).Nodup)
    (t c : List Nat) :
    try_keyword_map_scan m t = some c ↔ ∃ e ∈ m, e.p = t ∧ e.c = c := by
  constructor
  · exact try_keyword_map_scan_some
  · rintro ⟨e, he, rfl, rfl⟩
    exact try_keyword_map_scan_of_mem m hnd e he

theorem keyword_map_phrases_nodup : (keyword_map.map Map.p).Nodup := by decide

/-- C14 (keyword lookup contract): `try_keyword_map_exact t` succeeds with `c` exactly when
`keyword_map` has an entry with phrase `t` and replacement `c`; it fails exactly when no phrase
equals `t`; the phrases are pairwise distinct, so scanning the entries in any other order gives
the same result. -/
theorem keyword_lookup_contract (t : List Nat) :
    (∀ c, try_keyword_map_exact t = some c ↔ ∃ e ∈ keyword_map, e.p = t ∧ e.c = c) ∧
    (try_keyword_map_exact t = none ↔ ∀ e ∈ keyword_map, e.p ≠ t) ∧
    (keyword_map.map Map.p).Nodup ∧
    (∀ m : List Map, m.Perm keyword_map →
      try_keyword_map_scan m t = try_keyword_map_exact t) := by
  have hiff := try_keyword_map_scan_iff keyword_map keyword_map_phrases_nodup t
  refine ⟨hiff, ?_, keyword_map_phrases_nodup, ?_⟩
  · constructor
    · intro hnone e he hp
      have := try_keyword_map_scan_of_mem keyword_map keyword_map_phrases_nodup e he
      rw [hp] at this
      unfold try_keyword_map_exact at hnone
      rw [hnone] at this
      exact Option.noConfusion this
    · exact try_keyword_map_scan_none keyword_map t
  · intro m hm
    have hnd : (m.map Map.p).Nodup :=
      (hm.map Map.p).nodup_iff.mpr keyword_map_phrases_nodup
    have hm_iff := try_keyword_map_scan_iff m hnd t
    unfold try_keyword_map_exact
    cases h1 : try_keyword_map_scan keyword_map t with
    | none =>
      cases h2 : try_keyword_map_scan m t with
      | none => rfl
      | some c =>
        obtain ⟨e, he, hp⟩ := (hm_iff c).mp h2
        have := (hiff c).mpr ⟨e, hm.mem_iff.mp he, hp⟩
        unfold try_keyword_map_exact at this
        rw [h1] at this
        exact Option.noConfusion this
    | some c =>
      obtain ⟨e, he, hp⟩ := (hiff c).mp h1
      exact (hm_iff c).mpr ⟨e, hm.mem_iff.mpr he, hp⟩

/-- Witness of C14: `اگر` is found with `if`; its proper prefix and its extension by `x` are
not found; the reversed table gives the same answer. -/
theorem keyword_lookup_contract_witness :
    try_keyword_map_exact [216, 167, 218, 175, 216, 177] = some [105, 102] ∧
    try_keyword_map_exact [216, 167, 218, 175] = none ∧
    try_keyword_map_exact [216, 167, 218, 175, 216, 177, 120] = none ∧
    try_keyword_map_scan keyword_map.reverse [216, 167, 218, 175, 216, 177]
      = try_keyword_map_exact [216, 167, 218, 175, 216, 177] :=
  ⟨((keyword_lookup_contract [216, 167, 218, 175, 216, 177]).1 [105, 102]).mpr
      ⟨⟨[216, 167, 218, 175, 216, 177], [105, 102]⟩, by decide, rfl, rfl⟩,
    (keyword_lookup_contract [216, 167, 218, 175]).2.1.mpr (by decide),
    (keyword_lookup_contract [216, 167, 218, 175, 216, 177, 120]).2.1.mpr (by decide),
    (keyword_lookup_contract [216, 167, 218, 175, 216, 177]).2.2.2 _
      (List.reverse_perm keyword_map)⟩

/-! ### Command line -/

theorem main_args_loop_no_i (argv : List (List Nat))
    (h : ∀ i, 1 ≤ i → i + 1 < argv.length → argv.getD i [] ≠ dash_i) :
    ∀ (n i : Nat) (outfile : Option (List Nat)), 1 ≤ i →
      (main_args_loop n argv i none outfile).1 = none := by
  intro n
  induction n with
  | zero => intro i outfile _; rfl
  | succ n ih =>
    intro i outfile hi
    unfold main_args_loop
    by_cases h1 : i < argv.length
    · rw [if_pos h1]
      by_cases h2 : argv.getD i [] = dash_i ∧ i + 1 < argv.length
      · exact absurd h2.1 (h i hi h2.2)
      · rw [if_neg h2]
        by_cases h3 : argv.getD i [] = dash_o ∧ i + 1 < argv.length
        · rw [if_pos h3]; exact ih _ _ (by omega)
        · rw [if_neg h3]; exact ih _ _ (by omega)
    · rw [if_neg h1]

theorem main_args_loop_no_o (argv : List (List Nat))
    (h : ∀ i, 1 ≤ i → i + 1 < argv.length → argv.getD i [] ≠ dash_o) :
    ∀ (n i : Nat) (infile : Option (List Nat)), 1 ≤ i →
      (main_args_loop n argv i infile none).2 = none := by
  intro n
  induction n with
  | zero => intro i infile _; rfl
  | succ n ih =>
    intro i infile hi
    unfold main_args_loop
    by_cases h1 : i < argv.length
    · rw [if_pos h1]
      by_cases h2 : argv.getD i [] = dash_i ∧ i + 1 < argv.length
      · rw [if_pos h2]; exact ih _ _ (by omega)
      · rw [if_neg h2]
        by_cases h3 : argv.getD i [] = dash_o ∧ i + 1 < argv.length
        · exact absurd h3.1 (h i hi h3.2)
        · rw [if_neg h3]; exact ih _ _ (by omega)
    · rw [if_neg h1]

theorem main_exit_of_infile_none (argv : List (List Nat)) (file : List Nat → Option (List Nat))
    (writable : List Nat → Bool) (h : (main_args argv).1 = none) :
    (main argv file writable).status = 1 ∧ (main argv file writable).opened = [] := by
  unfold main
  split_ifs
  · exact ⟨rfl, rfl⟩
  · rcases hm : main_args argv with ⟨_ | a, b⟩
    · exact ⟨rfl, rfl⟩
    · rw [hm] at h; exact Option.noConfusion h

theorem main_exit_of_outfile_none (argv : List (List Nat))
    (file : List Nat → Option (List Nat)) (writable : List Nat → Bool)
    (h : (main_args argv).2 = none) :
    (main argv file writable).status = 1 ∧ (main argv file writable).opened = [] := by
  unfold main
  split_ifs
  · exact ⟨rfl, rfl⟩
  · rcases hm : main_args argv with ⟨a, _ | b⟩
    · cases a <;> exact ⟨rfl, rfl⟩
    · rw [hm] at h; exact Option.noConfusion h

/-- C15 (command-line argument selection): `-i a -o b` and `-o b -i a` both select `a` as the
input path and `b` as the output path, and `main` opens `a` first; with fewer than 3
arguments, or with no `-i` followed by a value, or with no `-o` followed by a value, `main`
returns status 1 and has opened no file. -/
theorem main_argument_selection (prog a b : List Nat) (argv : List (List Nat))
    (file : List Nat → Option (List Nat)) (writable : List Nat → Bool) :
    main_args [prog, dash_i, a, dash_o, b] = (some a, some b) ∧
    main_args [prog, dash_o, b, dash_i, a] = (some a, some b) ∧
    (main [prog, dash_i, a, dash_o, b] file writable).opened.head? = some a ∧
    (main [prog, dash_o, b, dash_i, a] file writable).opened.head? = some a ∧
    (argv.length < 3 →
      (main argv file writable).status = 1 ∧ (main argv file writable).opened = []) ∧
    ((∀ i, 1 ≤ i → i + 1 < argv.length → argv.getD i [] ≠ dash_i) →
      (main argv file writable).status = 1 ∧ (main argv file writable).opened = []) ∧
    ((∀ i, 1 ≤ i → i + 1 < argv.length → argv.getD i [] ≠ dash_o) →
      (main argv file writable).status = 1 ∧ (main argv file writable).opened = []) := by
  have hio : dash_o ≠ dash_i := by decide
  have h1 : main_args [prog, dash_i, a, dash_o, b] = (some a, some b) := by
    simp [main_args, main_args_loop, hio]
  have h2 : main_args [prog, dash_o, b, dash_i, a] = (some a, some b) := by
    simp [main_args, main_args_loop, hio]
  refine ⟨h1, h2, ?_, ?_, ?_, ?_, ?_⟩
  · unfold main
    rw [h1]
    simp only [List.length_cons, List.length_nil]
    cases file a with
    | none => simp
    | some buf => simp only []; split_ifs <;> simp_all
  · unfold main
    rw [h2]
    simp only [List.length_cons, List.length_nil]
    cases file a with
    | none => simp
    | some buf => simp only []; split_ifs <;> simp_all
  · intro h
    unfold main
    rw [if_pos h]
    exact ⟨rfl, rfl⟩
  · intro h
    exact main_exit_of_infile_none argv file writable
      (main_args_loop_no_i argv h _ 1 none (Nat.le_refl _))
  · intro h
    exact main_exit_of_outfile_none argv file writable
      (main_args_loop_no_o argv h _ 1 none (Nat.le_refl _))

/-- Witness of C15 on `prog -i in -o out` with the letters `in`, `out` as paths, and on
`prog -i in x`, which has no `-o`: the first selects the two paths, the second exits with
status 1 before opening a file. -/
theorem main_argument_selection_witness :
    main_args [[112], dash_i, [105, 110], dash_o, [111, 117, 116]]
      = (some [105, 110], some [111, 117, 116]) ∧
    (∀ i, 1 ≤ i → i + 1 < [[112], dash_i, [105, 110], [120]].length →
      ([[112], dash_i, [105, 110], [120]] : List (List Nat)).getD i [] ≠ dash_o) ∧
    (main [[112], dash_i, [105, 110], [120]] (fun _ => some []) (fun _ => true)).status = 1 ∧
    (main [[112], dash_i, [105, 110], [120]] (fun _ => some []) (fun _ => true)).opened = [] :=
  have hno : ∀ i, 1 ≤ i → i + 1 < [[112], dash_i, [105, 110], [120]].length →
      ([[112], dash_i, [105, 110], [120]] : List (List Nat)).getD i [] ≠ dash_o := by
    intro i h1 h2
    simp only [List.length_cons, List.length_nil] at h2
    have h3 : i < 3 := by omega
    interval_cases i <;> decide
  ⟨(main_argument_selection [112] [105, 110] [111, 117, 116] [] (fun _ => none)
      (fun _ => true)).1,
    hno,
    (main_argument_selection [112] [] [] [[112], dash_i, [105, 110], [120]] (fun _ => some [])
      (fun _ => true)).2.2.2.2.2.2 hno⟩

/-! ### Termination -/

theorem pos_lt_length_of_byte {src : List Nat} {i : Nat} (h : byte_at src i ≠ 0) :
    i < src.length := by
  by_contra hlt
  exact h (byte_at_of_drop_nil (List.drop_eq_nil_iff.mpr (by omega)))

theorem lex_step_progress (L : Lexer) (h : byte_at L.src L.pos ≠ 0) :
    L.pos < (lex_step L).1.pos ∧ (lex_step L).1.pos ≤ L.src.length ∧
      (lex_step L).1.src = L.src := by
  have hlt := pos_lt_length_of_byte h
  rw [lex_step_eq L _ rfl]
  cases hr : L.src.drop L.pos with
  | nil => exact absurd (byte_at_of_drop_nil hr) h
  | cons c cs =>
    have hb := step_view_bounds c cs L.line_no
    have hl : (c :: cs).length = L.src.length - L.pos := by rw [← hr, List.length_drop]
    rw [hl] at hb
    refine ⟨?_, ?_, rfl⟩
    · show L.pos < L.pos + _
      omega
    · show L.pos + _ ≤ _
      omega

theorem lex_loop_succ (n : Nat) (L : Lexer) (out : TokenArray)
    (h : byte_at L.src L.pos ≠ 0) :
    lex_loop (n + 1) L out =
      lex_loop n (lex_step L).1 (out ++ (lex_step L).2.toList) := by
  rw [lex_loop, if_neg h]
  rcases hs : lex_step L with ⟨L1, _ | t⟩ <;> simp [token_array_push]

theorem lex_loop_stop (n : Nat) (L : Lexer) (out : TokenArray)
    (h : byte_at L.src L.pos = 0) : lex_loop n L out = (L, out) := by
  cases n with
  | zero => rfl
  | succ n => rw [lex_loop, if_pos h]

/-- With a bound of at least `length - pos` iterations the main loop ends because
`src[pos] == 0`, inside the buffer, having pushed at most one token per byte it moved over. -/
theorem lex_loop_exit : ∀ (n : Nat) (L : Lexer) (out : TokenArray),
    L.src.length - L.pos ≤ n → L.pos ≤ L.src.length →
    byte_at (lex_loop n L out).1.src (lex_loop n L out).1.pos = 0 ∧
    (lex_loop n L out).1.src = L.src ∧
    (lex_loop n L out).1.pos ≤ L.src.length ∧
    (lex_loop n L out).2.length + L.pos ≤ out.length + (lex_loop n L out).1.pos := by
  intro n
  induction n with
  | zero =>
    intro L out hn hle
    have hb : byte_at L.src L.pos = 0 :=
      byte_at_of_drop_nil (List.drop_eq_nil_iff.mpr (by omega))
    exact ⟨hb, rfl, hle, Nat.le_refl _⟩
  | succ n ih =>
    intro L out hn hle
    by_cases hb : byte_at L.src L.pos = 0
    · rw [lex_loop_stop _ L out hb]
      exact ⟨hb, rfl, hle, Nat.le_refl _⟩
    · obtain ⟨h1, h2, h3⟩ := lex_step_progress L hb
      rw [lex_loop_succ n L out hb]
      obtain ⟨i1, i2, i3, i4⟩ := ih (lex_step L).1 (out ++ (lex_step L).2.toList)
        (by rw [h3]; omega) (by rw [h3]; exact h2)
      refine ⟨i1, i2.trans h3, h3 ▸ i3, ?_⟩
      have hlen : (out ++ (lex_step L).2.toList).length ≤ out.length + 1 := by
        rw [List.length_append]
        cases (lex_step L).2 <;> simp
      omega

/-- More iterations than `length - pos` change nothing. -/
theorem lex_loop_fuel : ∀ (n m : Nat) (L : Lexer) (out : TokenArray),
    L.src.length - L.pos ≤ n → L.src.length - L.pos ≤ m → L.pos ≤ L.src.length →
    lex_loop n L out = lex_loop m L out := by
  intro n
  induction n with
  | zero =>
    intro m L out hn _ hle
    have hb : byte_at L.src L.pos = 0 :=
      byte_at_of_drop_nil (List.drop_eq_nil_iff.mpr (by omega))
    rw [lex_loop_stop 0 L out hb, lex_loop_stop m L out hb]
  | succ n ih =>
    intro m L out hn hm hle
    by_cases hb : byte_at L.src L.pos = 0
    · rw [lex_loop_stop _ L out hb, lex_loop_stop m L out hb]
    · obtain ⟨h1, h2, h3⟩ := lex_step_progress L hb
      have hlt := pos_lt_length_of_byte hb
      obtain ⟨m1, rfl⟩ : ∃ m1, m = m1 + 1 := ⟨m - 1, by omega⟩
      rw [lex_loop_succ n L out hb, lex_loop_succ m1 L out hb]
      exact ih m1 _ _ (by rw [h3]; omega) (by rw [h3]; omega) (by rw [h3]; exact h2)

theorem skip_space_bounds (L : Lexer) (h : L.pos ≤ L.src.length) :
    (skip_space L).src = L.src ∧ L.pos ≤ (skip_space L).pos ∧
      (skip_space L).pos ≤ L.src.length := by
  rw [skip_space_eq L _ rfl]
  have := length_takeWhile_le isspace (L.src.drop L.pos)
  rw [List.length_drop] at this
  exact ⟨rfl, Nat.le_add_right _ _, by show L.pos + _ ≤ _; omega⟩

theorem tokens_before_end_of_shape (body : List Token) (e : Token)
    (hb : ∀ t ∈ body, t.type ≠ TK_EOF) (he : e.type = TK_EOF) :
    tokens_before_end (body ++ [e]) = body := by
  unfold tokens_before_end
  rw [List.takeWhile_append_of_pos (fun t ht => by simpa using hb t ht)]
  simp [List.takeWhile, he]

/-- C16 (termination by progress): an iteration of the main loop, entered with
`src[pos] != 0`, leaves `pos` strictly larger and not beyond the end of the input; so the loop
of `lex_all_to_array` ends with `src[pos] == 0` inside the input, any larger iteration bound
gives the same result, and the tokens before the terminator are at most as many as the bytes of
the input. -/
theorem lexing_terminates_by_progress (g : Lexer) (input : List Nat) (L : Lexer) :
    (byte_at L.src L.pos ≠ 0 →
      L.pos < (lex_step L).1.pos ∧ (lex_step L).1.pos ≤ L.src.length) ∧
    (byte_at (lex_all_to_array g input).1.src (lex_all_to_array g input).1.pos = 0 ∧
      (lex_all_to_array g input).1.src = input ∧
      (lex_all_to_array g input).1.pos ≤ input.length) ∧
    (∀ n, input.length ≤ n →
      lex_loop n (skip_space ⟨input, 0, 1⟩) token_array_init
        = lex_loop ((skip_space ⟨input, 0, 1⟩).src.length - (skip_space ⟨input, 0, 1⟩).pos)
            (skip_space ⟨input, 0, 1⟩) token_array_init) ∧
    (tokens_before_end (lex_all_to_array g input).2).length ≤ input.length := by
  obtain ⟨s1, s2, s3⟩ := skip_space_bounds ⟨input, 0, 1⟩ (Nat.zero_le _)
  simp only at s1 s2 s3
  have hexit := lex_loop_exit
    ((skip_space ⟨input, 0, 1⟩).src.length - (skip_space ⟨input, 0, 1⟩).pos)
    (skip_space ⟨input, 0, 1⟩) token_array_init (Nat.le_refl _) (by rw [s1]; exact s3)
  have e1 : (lex_all_to_array g input).1 =
      (lex_loop ((skip_space ⟨input, 0, 1⟩).src.length - (skip_space ⟨input, 0, 1⟩).pos)
        (skip_space ⟨input, 0, 1⟩) token_array_init).1 := rfl
  have hS : (skip_space ⟨input, 0, 1⟩).src.length = input.length := congrArg List.length s1
  refine ⟨fun h => ⟨(lex_step_progress L h).1, (lex_step_progress L h).2.1⟩, ?_, ?_, ?_⟩
  · rw [e1]
    exact ⟨hexit.1, hexit.2.1.trans s1, hexit.2.2.1.trans (Nat.le_of_eq hS)⟩
  · intro n hn
    exact lex_loop_fuel _ _ _ _ (by rw [s1]; omega) (Nat.le_refl _) (by rw [s1]; exact s3)
  · have hlen : (lex_all_to_array g input).2.length ≤ input.length + 1 := by
      have h4 := hexit.2.2.2
      have h3 := hexit.2.2.1
      have h0 : token_array_init.length = 0 := rfl
      rw [h0] at h4
      show (token_array_push _ _).length ≤ _
      simp only [token_array_push, List.length_append, List.length_singleton]
      omega
    obtain ⟨body, line1, hb, hne⟩ := lex_view_shape input.length input 1
    have heq : (lex_all_to_array g input).2 = body ++ [eof_token line1] := by
      rw [lex_all_to_array_eq]; exact hb
    rw [heq] at hlen ⊢
    rw [tokens_before_end_of_shape body _ hne rfl]
    simp only [List.length_append, List.length_singleton] at hlen
    omega

/-- Witness of C16 on the input `"\` (an unterminated string that ends with a backslash), at
its first byte: the iteration moves `pos` from 0 to 2, the length of the input, and the one
token before the terminator is within the 2 bytes. -/
theorem lexing_terminates_by_progress_witness :
    byte_at [34, 92] 0 ≠ 0 ∧
    (lex_step ⟨[34, 92], 0, 1⟩).1.pos = 2 ∧
    (0 < (lex_step ⟨[34, 92], 0, 1⟩).1.pos ∧ (lex_step ⟨[34, 92], 0, 1⟩).1.pos ≤ 2) ∧
    (tokens_before_end (lex_all_to_array ⟨[], 0, 0⟩ [34, 92]).2).length ≤ 2 :=
  ⟨by decide, rfl,
    (lexing_terminates_by_progress ⟨[], 0, 0⟩ [34, 92] ⟨[34, 92], 0, 1⟩).1 (by decide),
    (lexing_terminates_by_progress ⟨[], 0, 0⟩ [34, 92] ⟨[34, 92], 0, 1⟩).2.2.2⟩

/-! ### Classification of the tokens -/

/-- A property of every token pushed by an iteration started on an unread rest that satisfies
`Q`, and of the terminating token, holds for every token of the sequence, when `Q` passes from
a rest to what remains of it. -/
theorem lex_view_forall_of (Q : List Nat → Prop) (P : Token → Prop)
    (hQ : ∀ rest k, Q rest → Q (rest.drop k))
    (hstep : ∀ rest line t, Q rest → (step_view rest line).2.2 = some t → P t)
    (heof : ∀ line, P (eof_token line)) :
    ∀ (n : Nat) (rest : List Nat) (line : Nat), Q rest →
      ∀ t ∈ lex_view n rest line, P t := by
  intro n
  induction n with
  | zero =>
    intro rest line _ t ht
    simp only [lex_view, List.mem_singleton] at ht
    subst ht; exact heof line
  | succ n ih =>
    intro rest line hq t ht
    by_cases h0 : rest.headD 0 = 0
    · rw [lex_view_stop _ _ _ h0, List.mem_singleton] at ht
      subst ht; exact heof line
    · rw [lex_view_succ n rest line h0] at ht
      rcases List.mem_append.mp ht with h1 | h1
      · exact hstep rest line t hq (by simpa [Option.mem_toList] using h1)
      · exact ih _ _ (hQ rest _ hq) t h1

theorem ident_start_to_spec {c : Nat} (hc : c < 256) (h : is_ident_start c = true) :
    (isalpha c || c == 95 || high_bit c) = true := by
  unfold is_ident_start at h
  simp only [Bool.or_eq_true] at h ⊢
  rcases h with (h | h) | h
  · exact Or.inl (Or.inl h)
  · exact Or.inl (Or.inr h)
  · right
    have : 128 ≤ c := high_bit_ge (by simpa using h)
    simp [high_bit, this, hc]

theorem ident_char_to_spec {c : Nat} (hc : c < 256) (h : is_ident_char c = true) :
    (isalpha c || isdigit c || c == 95 || high_bit c) = true := by
  unfold is_ident_char isalnum at h
  simp only [Bool.or_eq_true] at h ⊢
  rcases h with h | (h | h) | h
  · right
    have : 128 ≤ c := high_bit_ge (by simpa using h)
    simp [high_bit, this, hc]
  · exact Or.inl (Or.inl (Or.inl h))
  · exact Or.inl (Or.inl (Or.inr h))
  · exact Or.inl (Or.inr h)

theorem ident_shaped_takeWhile (rest : List Nat) (hb : ∀ b ∈ rest, b < 256)
    (hs : is_ident_start (rest.headD 0) = true) :
    ident_shaped (rest.takeWhile is_ident_char) = true := by
  match rest, hb, hs with
  | [], _, hs => exact absurd hs (by decide)
  | c :: cs, hb, hs =>
    simp only [List.headD_cons] at hs
    have hc : c < 256 := hb c (List.mem_cons_self _ _)
    have htw : (c :: cs).takeWhile is_ident_char = c :: cs.takeWhile is_ident_char := by
      simp [List.takeWhile, is_ident_char_of_start hs]
    have hall : ∀ b ∈ (c :: cs).takeWhile is_ident_char,
        (isalpha b || isdigit b || b == 95 || high_bit b) = true := by
      intro b hmem
      exact ident_char_to_spec (hb b ((List.takeWhile_sublist _).subset hmem))
        (List.mem_takeWhile_imp hmem)
    rw [htw] at hall ⊢
    unfold ident_shaped
    rw [Bool.and_eq_true, List.all_eq_true]
    exact ⟨ident_start_to_spec hc hs, hall⟩

/-- C17 (keyword/identifier classification): in the token array of an input of bytes, the text
of every `TK_KW` token is the replacement of an entry of `keyword_map`, and the text of every
`TK_IDENT` token is identifier-shaped and is not a phrase of `keyword_map`. -/
theorem keyword_identifier_classification (g : Lexer) (input : List Nat)
    (hbytes : ∀ b ∈ input, b < 256) :
    ∀ t ∈ (lex_all_to_array g input).2,
      (t.type = TK_KW → ∃ e ∈ keyword_map, e.c = t.lexeme) ∧
      (t.type = TK_IDENT →
        ident_shaped t.lexeme = true ∧ ∀ e ∈ keyword_map, e.p ≠ t.lexeme) := by
  rw [lex_all_to_array_eq]
  apply lex_view_forall_of (fun rest => ∀ b ∈ rest, b < 256)
  · intro rest k hq b hb
    exact hq b (List.mem_of_mem_drop hb)
  · intro rest line t hq ht
    rcases step_view_token_cases ht with ⟨_, rfl⟩ | ⟨_, rfl⟩ | ⟨_, m, hm, rfl⟩ |
      ⟨hs, hnone, rfl⟩ | ⟨_, _, rfl⟩ | ⟨_, _, rfl⟩
    · simp
    · simp
    · refine ⟨fun _ => ?_, by simp⟩
      obtain ⟨e, he, _, hc⟩ := try_keyword_map_scan_some hm
      exact ⟨e, he, hc⟩
    · refine ⟨by simp, fun _ => ⟨ident_shaped_takeWhile rest hq hs, ?_⟩⟩
      intro e he hp
      have := try_keyword_map_scan_of_mem keyword_map keyword_map_phrases_nodup e he
      rw [hp] at this
      unfold try_keyword_map_exact at hnone
      rw [hnone] at this
      exact Option.noConfusion this
    · simp
    · simp
  · intro line; simp [eof_token]
  · exact hbytes

/-- Witness of C17 on the scenario input, which has keyword and identifier tokens. -/
theorem keyword_identifier_classification_witness :
    (∀ b ∈ scenario_input, b < 256) ∧
    (⟨TK_KW, [105, 102], 1⟩ ∈ (lex_all_to_array ⟨[], 0, 0⟩ scenario_input).2 ∧
      ⟨TK_IDENT, [120], 1⟩ ∈ (lex_all_to_array ⟨[], 0, 0⟩ scenario_input).2) ∧
    ∀ t ∈ (lex_all_to_array ⟨[], 0, 0⟩ scenario_input).2,
      (t.type = TK_KW → ∃ e ∈ keyword_map, e.c = t.lexeme) ∧
      (t.type = TK_IDENT →
        ident_shaped t.lexeme = true ∧ ∀ e ∈ keyword_map, e.p ≠ t.lexeme) :=
  ⟨by decide, by decide,
    keyword_identifier_classification ⟨[], 0, 0⟩ scenario_input (by decide)⟩

/-! ### Operator texts -/

theorem match_symbol_none {syms : List (List Nat)} {rest : List Nat}
    (h : match_symbol syms ⟨rest, 0, 0⟩ = none) :
    ∀ s ∈ syms, strncmp_eq rest 0 s s.length = false := by
  induction syms with
  | nil => intro s hs; simp at hs
  | cons a syms ih =>
    unfold match_symbol at h
    by_cases ha : strncmp_eq rest 0 a a.length = true
    · simp [ha] at h
    · simp only [ha] at h
      intro s hs
      rcases List.mem_cons.mp hs with rfl | hmem
      · simpa using ha
      · exact ih h s hmem

theorem punct_in_symbols : ∀ c ∈ punct_set, c ≠ 91 → c ≠ 93 → [c] ∈ symbols := by decide

theorem fallback_only_brackets {rest : List Nat}
    (h : match_symbol symbols ⟨rest, 0, 0⟩ = none) (hp : rest.headD 0 ∈ punct_set) :
    rest.headD 0 = 91 ∨ rest.headD 0 = 93 := by
  by_contra hne
  rw [not_or] at hne
  have hmem := punct_in_symbols _ hp hne.1 hne.2
  have hfalse := match_symbol_none h _ hmem
  match rest, hp, hmem, hfalse with
  | [], hp, _, _ => exact absurd hp (by decide)
  | c :: cs, _, hmem, hfalse =>
    simp only [List.headD_cons] at hmem hfalse
    have hpre : [c] <+: c :: cs := ⟨cs, rfl⟩
    have htrue := (strncmp_eq_iff_starts (c :: cs) [c] (symbols_nul_free [c] hmem)).mpr hpre
    rw [htrue] at hfalse
    exact Bool.noConfusion hfalse

/-- C18 (operator text invariant): the text of every `TK_OP` token is an entry of `symbols`
or one of `[` and `]`; the one-character fallback is reached only at `[` and `]`, every other
byte of its set being an entry of `symbols`, which the loop over the table matches first. -/
theorem operator_text_invariant (g : Lexer) (input : List Nat) (L : Lexer) :
    (∀ t ∈ (lex_all_to_array g input).2, t.type = TK_OP →
      t.lexeme ∈ symbols ∨ t.lexeme = [91] ∨ t.lexeme = [93]) ∧
    (match_symbol symbols L = none → byte_at L.src L.pos ∈ punct_set →
      byte_at L.src L.pos = 91 ∨ byte_at L.src L.pos = 93) ∧
    (∀ c ∈ punct_set, c ≠ 91 → c ≠ 93 → [c] ∈ symbols) := by
  refine ⟨?_, ?_, punct_in_symbols⟩
  · rw [lex_all_to_array_eq]
    apply lex_view_forall
    · intro rest line t ht
      rcases step_view_token_cases ht with ⟨_, rfl⟩ | ⟨_, rfl⟩ | ⟨_, m, _, rfl⟩ |
        ⟨_, _, rfl⟩ | ⟨s, hs, rfl⟩ | ⟨hn, hp, rfl⟩
      · simp
      · simp
      · simp
      · simp
      · intro _
        exact Or.inl (match_symbol_some hs).1
      · intro _
        rcases fallback_only_brackets hn hp with h | h
        · exact Or.inr (Or.inl (by show [rest.headD 0] = [91]; rw [h]))
        · exact Or.inr (Or.inr (by show [rest.headD 0] = [93]; rw [h]))
    · intro line; simp [eof_token]
  · intro hn hp
    rw [match_symbol_eq symbols L _ rfl] at hn
    rw [byte_at_eq_headD] at hp ⊢
    exact fallback_only_brackets hn hp

/-- Witness of C18 on the input `[=]`: the fallback gives `[` and `]`, the table gives `=`. -/
theorem operator_text_invariant_witness :
    (lex_all_to_array ⟨[], 0, 0⟩ [91, 61, 93]).2
      = [⟨TK_OP, [91], 1⟩, ⟨TK_OP, [61], 1⟩, ⟨TK_OP, [93], 1⟩, eof_token 1] ∧
    (match_symbol symbols ⟨[91, 61, 93], 0, 1⟩ = none ∧
      byte_at [91, 61, 93] 0 ∈ punct_set) ∧
    (byte_at [91, 61, 93] 0 = 91 ∨ byte_at [91, 61, 93] 0 = 93) :=
  ⟨rfl, ⟨by decide, by decide⟩,
    (operator_text_invariant ⟨[], 0, 0⟩ [] ⟨[91, 61, 93], 0, 1⟩).2.1 (by decide) (by decide)⟩

/-! ### One iteration looks no further than the next separator -/

theorem separator_lt : ∀ x, separator x = true → x < 128 := by
  intro x h
  simp only [separator, Bool.or_eq_true] at h
  rcases h with h | h
  · simp [isspace] at h; omega
  · simp only [unrecognized, Bool.and_eq_true, decide_eq_true_eq] at h
    exact h.1.1.1.1.1.1.1.1.1.2

theorem separator_class_low : ∀ x < 128, separator x = true →
    is_ident_char x = false ∧ isdigit x = false ∧ x ≠ 46 ∧ ∀ s ∈ symbols, x ∉ s := by
  decide

theorem separator_class {x : Nat} (h : separator x = true) :
    is_ident_char x = false ∧ isdigit x = false ∧ x ≠ 46 ∧ ∀ s ∈ symbols, x ∉ s :=
  separator_class_low x (separator_lt x h) h

theorem takeWhile_append_stop (p : Nat → Bool) (a : List Nat) (x : Nat) (b : List Nat)
    (hx : p x = false) : (a ++ x :: b).takeWhile p = a.takeWhile p := by
  induction a with
  | nil => simp [List.takeWhile, hx]
  | cons c cs ih =>
    by_cases hc : p c = true
    · simp [List.takeWhile, hc, ih]
    · simp [List.takeWhile, hc]

theorem number_len_le (a : List Nat) : number_len a ≤ a.length := by
  cases a with
  | nil => simp [number_len]
  | cons c cs =>
    by_cases hc : isdigit c = true
    · exact (number_len_bounds c cs hc).2
    · have := length_takeWhile_le isdigit cs
      simp [number_len, List.takeWhile, hc]
      split_ifs <;> omega

theorem number_len_local (a : List Nat) (x : Nat) (b : List Nat)
    (hd : isdigit x = false) (h46 : x ≠ 46) :
    number_len (a ++ x :: b) = number_len a := by
  have hk := takeWhile_append_stop isdigit a x b hd
  have hle := length_takeWhile_le isdigit a
  unfold number_len
  simp only [hk]
  have hdrop : (a ++ x :: b).drop (a.takeWhile isdigit).length
      = a.drop (a.takeWhile isdigit).length ++ x :: b :=
    List.drop_append_of_le_length hle
  rw [hdrop]
  cases hr : a.drop (a.takeWhile isdigit).length with
  | nil =>
    simp only [List.nil_append, List.headD_cons, List.headD_nil, if_neg h46]
    rw [if_neg (by decide)]
  | cons y ys =>
    simp only [List.cons_append, List.headD_cons]
    have hlt : (a.takeWhile isdigit).length + 1 ≤ a.length := by
      have := congrArg List.length hr
      rw [List.length_drop, List.length_cons] at this
      omega
    have h1 : a.drop ((a.takeWhile isdigit).length + 1) = ys := by
      rw [← List.drop_drop, hr]; rfl
    have h2 : (a ++ x :: b).drop ((a.takeWhile isdigit).length + 1) = ys ++ x :: b := by
      rw [List.drop_append_of_le_length hlt, h1]
    rw [h1, h2, takeWhile_append_stop isdigit ys x b hd]

theorem starts_local (s a : List Nat) (x : Nat) (b : List Nat) (hx : x ∉ s) :
    s <+: a ++ x :: b ↔ s <+: a := by
  constructor
  · intro h
    rcases List.prefix_or_prefix_of_prefix h (List.prefix_append a (x :: b)) with h1 | h1
    · exact h1
    · obtain ⟨t, rfl⟩ := h1
      have ht : t <+: x :: b := (List.prefix_append_right_inj a).mp h
      cases t with
      | nil => simp
      | cons y t =>
        have : y = x := (List.cons_prefix_cons.mp ht).1
        exact absurd (by simp [this]) hx
  · intro h
    exact h.trans (List.prefix_append a (x :: b))

theorem match_symbol_local (a : List Nat) (x : Nat) (b : List Nat) :
    ∀ syms : List (List Nat), (∀ s ∈ syms, (∀ y ∈ s, y ≠ 0) ∧ x ∉ s) →
      match_symbol syms ⟨a ++ x :: b, 0, 0⟩ = match_symbol syms ⟨a, 0, 0⟩ := by
  intro syms
  induction syms with
  | nil => intro _; rfl
  | cons s syms ih =>
    intro h
    obtain ⟨hs0, hsx⟩ := h s (List.mem_cons_self _ _)
    have heq : strncmp_eq (a ++ x :: b) 0 s s.length = strncmp_eq a 0 s s.length := by
      rw [Bool.eq_iff_iff, strncmp_eq_iff_starts _ s hs0, strncmp_eq_iff_starts _ s hs0]
      exact starts_local s a x b hsx
    unfold match_symbol
    simp only [heq]
    rw [ih (fun s' hs' => h s' (List.mem_cons_of_mem _ hs'))]

/-- An iteration that starts at a byte which is neither whitespace nor `"` gives the same
result whether the text `a` it starts in ends the input or is followed by a separator. -/
theorem step_view_local (c : Nat) (cs : List Nat) (x : Nat) (b : List Nat) (line : Nat)
    (hsp : isspace c = false) (h34 : c ≠ 34) (hx : separator x = true) :
    step_view (c :: cs ++ x :: b) line = step_view (c :: cs) line := by
  obtain ⟨x1, x2, x3, x4⟩ := separator_class hx
  have hnum := number_len_local (c :: cs) x b x2 x3
  have htw := takeWhile_append_stop is_ident_char (c :: cs) x b x1
  have hms := match_symbol_local (c :: cs) x b symbols
    (fun s hs => ⟨symbols_nul_free s hs, x4 s hs⟩)
  have htake : (c :: cs ++ x :: b).take (number_len (c :: cs))
      = (c :: cs).take (number_len (c :: cs)) :=
    List.take_append_of_le_length (number_len_le _)
  unfold step_view
  simp only [List.cons_append, List.headD_cons] at hnum htw hms htake ⊢
  simp only [hsp, if_neg h34, hnum, htw, hms, htake]
  simp

/-- Only the whitespace branch changes the line counter. -/
theorem step_view_line (rest : List Nat) (line : Nat) (h1 : isspace (rest.headD 0) = false) :
    (step_view rest line).2.1 = line := by
  unfold step_view
  simp only []
  rw [if_neg (by rw [h1]; exact Bool.false_ne_true)]
  by_cases h2 : isdigit (rest.headD 0) = true
  · simp only [if_pos h2]
  · simp only [if_neg h2]
    by_cases h3 : rest.headD 0 = 34
    · simp only [if_pos h3]
    · simp only [if_neg h3]
      by_cases h4 : is_ident_start (rest.headD 0) = true
      · simp only [if_pos h4]
        cases try_keyword_map_exact (rest.takeWhile is_ident_char) <;> rfl
      · simp only [if_neg h4]
        cases match_symbol symbols ⟨rest, 0, 0⟩ with
        | some s => rfl
        | none =>
          by_cases h5 : rest.headD 0 ∈ punct_set
          · simp only [if_pos h5]
          · simp only [if_neg h5]

/-- A text `a` without NUL and without `"`, followed by a separator: its tokens are those of
`a` alone, and lexing goes on at the separator, on the line that the terminator of `a` has. -/
theorem lexS_append_separator : ∀ (n : Nat) (a : List Nat), a.length ≤ n →
    0 ∉ a → 34 ∉ a → ∀ line : Nat,
    ∃ body line1, lexS a line = body ++ [eof_token line1] ∧
      (∀ t ∈ body, t.type ≠ TK_EOF) ∧
      ∀ (x : Nat) (b : List Nat), separator x = true →
        lexS (a ++ x :: b) line = body ++ lexS (x :: b) line1 := by
  intro n
  induction n with
  | zero =>
    intro a ha _ _ line
    have : a = [] := List.length_eq_zero.mp (Nat.le_zero.mp ha)
    subst this
    exact ⟨[], line, rfl, by simp, fun x b _ => rfl⟩
  | succ n ih =>
    intro a ha h0 h34 line
    match a, ha, h0, h34 with
    | [], _, _, _ => exact ⟨[], line, rfl, by simp, fun x b _ => rfl⟩
    | c :: cs, ha, h0, h34 =>
      have hc0 : c ≠ 0 := by rintro rfl; simp at h0
      have hc34 : c ≠ 34 := by rintro rfl; simp at h34
      by_cases hsp : isspace c = true
      · obtain ⟨body, line1, h1, h2, h3⟩ := ih cs (by simp at ha; omega)
          (fun h => h0 (List.mem_cons_of_mem _ h)) (fun h => h34 (List.mem_cons_of_mem _ h))
          (line + if c = 10 then 1 else 0)
        refine ⟨body, line1, ?_, h2, ?_⟩
        · rw [lexS_space c cs line hsp]; exact h1
        · intro x b hx
          rw [List.cons_append, lexS_space c _ line hsp]
          exact h3 x b hx
      · have hsp1 : isspace c = false := by simpa using hsp
        have hb := step_view_bounds c cs line
        have hline : (step_view (c :: cs) line).2.1 = line :=
          step_view_line (c :: cs) line (by simpa using hsp1)
        obtain ⟨body, line1, h1, h2, h3⟩ :=
          ih ((c :: cs).drop (step_view (c :: cs) line).1)
            (by rw [List.length_drop]; simp only [List.length_cons] at ha hb ⊢; omega)
            (fun h => h0 (List.mem_of_mem_drop h)) (fun h => h34 (List.mem_of_mem_drop h))
            line
        refine ⟨(step_view (c :: cs) line).2.2.toList ++ body, line1, ?_, ?_, ?_⟩
        · rw [lexS_step _ _ (by simpa using hc0), hline, h1, List.append_assoc]
        · intro t ht
          rcases List.mem_append.mp ht with h | h
          · exact step_view_token_type (by simpa [Option.mem_toList] using h)
          · exact h2 t h
        · intro x b hx
          have hloc := step_view_local c cs x b line hsp1 hc34 hx
          rw [lexS_step _ _ (by simpa using hc0), hloc, hline,
            List.drop_append_of_le_length hb.2, h3 x b hx, List.append_assoc]

theorem unrecognized_class_low : ∀ c < 128, unrecognized c = true →
    c ≠ 0 ∧ isspace c = false ∧ isdigit c = false ∧ c ≠ 34 ∧ is_ident_start c = false ∧
      c ∉ punct_set ∧ ∀ s ∈ symbols, s.headD 0 ≠ c := by
  decide

theorem unrecognized_class {c : Nat} (h : unrecognized c = true) :
    c ≠ 0 ∧ isspace c = false ∧ isdigit c = false ∧ c ≠ 34 ∧ is_ident_start c = false ∧
      c ∉ punct_set ∧ ∀ s ∈ symbols, s.headD 0 ≠ c :=
  unrecognized_class_low c (separator_lt c (by simp [separator, h])) h

theorem match_symbol_none_of_head (c : Nat) (r : List Nat) :
    ∀ syms : List (List Nat), (∀ s ∈ syms, (∀ y ∈ s, y ≠ 0) ∧ 1 ≤ s.length ∧ s.headD 0 ≠ c) →
      match_symbol syms ⟨c :: r, 0, 0⟩ = none := by
  intro syms
  induction syms with
  | nil => intro _; rfl
  | cons s syms ih =>
    intro h
    obtain ⟨hs0, hs1, hsc⟩ := h s (List.mem_cons_self _ _)
    have hf : strncmp_eq (c :: r) 0 s s.length = false := by
      rw [← Bool.not_eq_true, strncmp_eq_iff_starts _ s hs0]
      intro hp
      match s, hs1, hsc, hp with
      | y :: ys, _, hsc, hp =>
        exact hsc (List.cons_prefix_cons.mp hp).1
    unfold match_symbol
    simp only [hf]
    exact ih (fun s' hs' => h s' (List.mem_cons_of_mem _ hs'))

/-- An unrecognized byte is skipped: no token, no change of line. -/
theorem lexS_unrecognized (c : Nat) (r : List Nat) (line : Nat) (h : unrecognized c = true) :
    lexS (c :: r) line = lexS r line := by
  obtain ⟨u0, u1, u2, u3, u4, u5, u6⟩ := unrecognized_class h
  have hm : match_symbol symbols ⟨c :: r, 0, 0⟩ = none :=
    match_symbol_none_of_head c r symbols
      (fun s hs => ⟨symbols_nul_free s hs, symbols_nonempty s hs, u6 s hs⟩)
  have hstep : step_view (c :: r) line = (1, line, none) := by
    unfold step_view
    simp only [List.headD_cons, u1, u2, if_neg u3, u4, hm, if_neg u5]
    simp
  rw [lexS_step _ _ (by simpa using u0), hstep]
  rfl

theorem lexS_all_unrecognized (u : List Nat) (line : Nat)
    (h : ∀ d ∈ u, unrecognized d = true) : lexS u line = [eof_token line] := by
  induction u with
  | nil => rfl
  | cons c cs ih =>
    rw [lexS_unrecognized c cs line (h c (List.mem_cons_self _ _))]
    exact ih (fun d hd => h d (List.mem_cons_of_mem _ hd))

/-- C12 (unrecognized bytes are dropped): after a prefix `a` without `"` (and without NUL, as
in a C string) an unrecognized byte `c` gives exactly the token sequence that a space in its
place gives, whatever follows; and an input of unrecognized bytes only lexes to the
terminating token alone. -/
theorem unrecognized_byte_dropped (a b : List Nat) (c : Nat) (h0 : 0 ∉ a) (h34 : 34 ∉ a)
    (hc : unrecognized c = true) (g : Lexer) :
    (lex_all_to_array g (a ++ [c] ++ b)).2 = (lex_all_to_array g (a ++ [32] ++ b)).2 ∧
    (∀ u : List Nat, (∀ d ∈ u, unrecognized d = true) →
      (lex_all_to_array g u).2 = [eof_token 1]) := by
  constructor
  · obtain ⟨body, line1, _, _, h3⟩ :=
      lexS_append_separator a.length a (Nat.le_refl _) h0 h34 1
    have e1 : a ++ [c] ++ b = a ++ c :: b := by simp
    have e2 : a ++ [32] ++ b = a ++ 32 :: b := by simp
    rw [lex_all_to_array_eq, lex_all_to_array_eq, e1, e2,
      h3 c b (by simp [separator, hc]), h3 32 b (by decide),
      lexS_unrecognized c b line1 hc, lexS_space 32 b line1 (by decide)]
    simp
  · intro u hu
    rw [lex_all_to_array_eq]
    exact lexS_all_unrecognized u 1 hu

/-- Witness of C12 with the prefix `a1`, the unrecognized byte `#` and the suffix `b`: `a1#b`
lexes as `a1 b` does, to the identifiers `a1` and `b`; and `#$@` lexes to the terminator. -/
theorem unrecognized_byte_dropped_witness :
    (0 ∉ [97, 49] ∧ 34 ∉ [97, 49] ∧ unrecognized 35 = true) ∧
    (lex_all_to_array ⟨[], 0, 0⟩ [97, 49, 35, 98]).2
      = (lex_all_to_array ⟨[], 0, 0⟩ [97, 49, 32, 98]).2 ∧
    (lex_all_to_array ⟨[], 0, 0⟩ [97, 49, 35, 98]).2
      = [⟨TK_IDENT, [97, 49], 1⟩, ⟨TK_IDENT, [98], 1⟩, eof_token 1] ∧
    (lex_all_to_array ⟨[], 0, 0⟩ [35, 36, 64]).2 = [eof_token 1] :=
  ⟨⟨by decide, by decide, by decide⟩,
    (unrecognized_byte_dropped [97, 49] [98] 35 (by decide) (by decide) (by decide)
      ⟨[], 0, 0⟩).1,
    rfl,
    (unrecognized_byte_dropped [97, 49] [98] 35 (by decide) (by decide) (by decide)
      ⟨[], 0, 0⟩).2 [35, 36, 64] (by decide)⟩

/-! ### Kinds and texts do not depend on the line -/

theorem step_view_kinds (rest : List Nat) (l l2 : Nat) :
    (step_view rest l).1 = (step_view rest l2).1 ∧
    kinds_texts (step_view rest l).2.2.toList = kinds_texts (step_view rest l2).2.2.toList := by
  unfold step_view
  simp only []
  by_cases h1 : isspace (rest.headD 0) = true
  · rw [if_pos h1, if_pos h1]; exact ⟨rfl, rfl⟩
  · rw [if_neg h1, if_neg h1]
    by_cases h2 : isdigit (rest.headD 0) = true
    · rw [if_pos h2, if_pos h2]; exact ⟨rfl, rfl⟩
    · rw [if_neg h2, if_neg h2]
      by_cases h3 : rest.headD 0 = 34
      · rw [if_pos h3, if_pos h3]; exact ⟨rfl, rfl⟩
      · rw [if_neg h3, if_neg h3]
        by_cases h4 : is_ident_start (rest.headD 0) = true
        · rw [if_pos h4, if_pos h4]
          cases try_keyword_map_exact (rest.takeWhile is_ident_char) <;> exact ⟨rfl, rfl⟩
        · rw [if_neg h4, if_neg h4]
          cases match_symbol symbols ⟨rest, 0, 0⟩ with
          | some s => exact ⟨rfl, rfl⟩
          | none =>
            by_cases h5 : rest.headD 0 ∈ punct_set
            · rw [if_pos h5, if_pos h5]; exact ⟨rfl, rfl⟩
            · rw [if_neg h5, if_neg h5]; exact ⟨rfl, rfl⟩

theorem kinds_texts_append (ts ts2 : TokenArray) :
    kinds_texts (ts ++ ts2) = kinds_texts ts ++ kinds_texts ts2 := by
  simp [kinds_texts]

theorem kinds_texts_lex_view : ∀ (n : Nat) (rest : List Nat) (l l2 : Nat),
    kinds_texts (lex_view n rest l) = kinds_texts (lex_view n rest l2) := by
  intro n
  induction n with
  | zero => intro rest l l2; rfl
  | succ n ih =>
    intro rest l l2
    by_cases h0 : rest.headD 0 = 0
    · rw [lex_view_stop _ _ _ h0, lex_view_stop _ _ _ h0]; rfl
    · rw [lex_view_succ n rest l h0, lex_view_succ n rest l2 h0, kinds_texts_append,
        kinds_texts_append, (step_view_kinds rest l l2).1, (step_view_kinds rest l l2).2,
        ih _ (step_view rest l).2.1 (step_view rest l2).2.1]

theorem kinds_texts_lexS (rest : List Nat) (l l2 : Nat) :
    kinds_texts (lexS rest l) = kinds_texts (lexS rest l2) :=
  kinds_texts_lex_view _ rest l l2

theorem lexS_whitespace_run (w b : List Nat) (hw : ∀ c ∈ w, isspace c = true) :
    ∀ line : Nat, ∃ line2, lexS (w ++ b) line = lexS b line2 := by
  induction w with
  | nil => intro line; exact ⟨line, rfl⟩
  | cons c cs ih =>
    intro line
    obtain ⟨line2, h⟩ := ih (fun d hd => hw d (List.mem_cons_of_mem _ hd))
      (line + if c = 10 then 1 else 0)
    exact ⟨line2, by rw [List.cons_append, lexS_space c _ line (hw c (List.mem_cons_self _ _)), h]⟩

/-! ### The generator reads kinds and texts only -/

theorem generate_raw_c_congr : ∀ (ts ts2 : TokenArray),
    kinds_texts ts = kinds_texts ts2 → generate_raw_c ts = generate_raw_c ts2 := by
  intro ts
  induction ts with
  | nil =>
    intro ts2 h
    cases ts2 with
    | nil => rfl
    | cons t ts2 => simp [kinds_texts] at h
  | cons t ts ih =>
    intro ts2 h
    cases ts2 with
    | nil => simp [kinds_texts] at h
    | cons t2 ts2 =>
      simp only [kinds_texts, List.map_cons, List.cons.injEq, Prod.mk.injEq] at h
      obtain ⟨⟨ht, hl⟩, hrest⟩ := h
      have := ih ts2 hrest
      simp only [generate_raw_c, ht, hl, this]

theorem generate_raw_c_append (body rest : TokenArray) (hb : ∀ t ∈ body, t.type ≠ TK_EOF) :
    generate_raw_c (body ++ rest) = generate_raw_c body ++ generate_raw_c rest := by
  induction body with
  | nil => rfl
  | cons t body ih =>
    have ht := hb t (List.mem_cons_self _ _)
    have := ih (fun t' ht' => hb t' (List.mem_cons_of_mem _ ht'))
    simp only [List.cons_append, generate_raw_c, if_neg ht, List.append_eq, this,
      List.append_assoc, List.cons_append]

theorem generate_raw_c_body (body : TokenArray) (line : Nat)
    (hb : ∀ t ∈ body, t.type ≠ TK_EOF) :
    generate_raw_c (body ++ [eof_token line]) = generate_raw_c body := by
  rw [generate_raw_c_append body _ hb]
  simp [generate_raw_c, eof_token]

/-- C19 (whitespace-separated concatenation): for `a` without `"` (and without NUL, as in a C
string), any `b` and a non-empty run `w` of whitespace, the kinds and texts of the tokens of
`a ++ w ++ b` are those of `a` before its terminator followed by those of `b`, and the output
generated for `a ++ w ++ b` is the output for `a` followed by the output for `b`; neither
depends on `w`. -/
theorem whitespace_concat_homomorphism (a b w : List Nat) (h0 : 0 ∉ a) (h34 : 34 ∉ a)
    (hne : w ≠ []) (hw : ∀ c ∈ w, isspace c = true) (g : Lexer) :
    kinds_texts (lex_all_to_array g (a ++ w ++ b)).2
      = kinds_texts (tokens_before_end (lex_all_to_array g a).2)
          ++ kinds_texts (lex_all_to_array g b).2 ∧
    generate_raw_c (lex_all_to_array g (a ++ w ++ b)).2
      = generate_raw_c (lex_all_to_array g a).2 ++ generate_raw_c (lex_all_to_array g b).2 := by
  obtain ⟨body, line1, h1, h2, h3⟩ :=
    lexS_append_separator a.length a (Nat.le_refl _) h0 h34 1
  match w, hne, hw with
  | x :: w1, _, hw =>
    have hx : separator x = true := by
      simp [separator, hw x (List.mem_cons_self _ _)]
    obtain ⟨line2, h4⟩ := lexS_whitespace_run (x :: w1) b hw line1
    have e1 : a ++ x :: w1 ++ b = a ++ x :: (w1 ++ b) := by simp
    have hall : lexS (a ++ x :: w1 ++ b) 1 = body ++ lexS b line2 := by
      rw [e1, h3 x (w1 ++ b) hx, ← h4]; rfl
    simp only [lex_all_to_array_eq]
    rw [hall, h1, tokens_before_end_of_shape body _ h2 rfl]
    constructor
    · rw [kinds_texts_append, kinds_texts_lexS b line2 1]
    · rw [generate_raw_c_append body _ h2, generate_raw_c_body body _ h2,
        generate_raw_c_congr _ _ (kinds_texts_lexS b line2 1)]

/-- Witness of C19 with `a` = `x=1`, `w` = a newline and a tab, `b` = `"s" y`. -/
theorem whitespace_concat_homomorphism_witness :
    (0 ∉ [120, 61, 49] ∧ 34 ∉ [120, 61, 49] ∧ [10, 9] ≠ [] ∧
      ∀ c ∈ [10, 9], isspace c = true) ∧
    kinds_texts (lex_all_to_array ⟨[], 0, 0⟩ ([120, 61, 49] ++ [10, 9] ++ [34, 115, 34, 32, 121])).2
      = kinds_texts (tokens_before_end (lex_all_to_array ⟨[], 0, 0⟩ [120, 61, 49]).2)
          ++ kinds_texts (lex_all_to_array ⟨[], 0, 0⟩ [34, 115, 34, 32, 121]).2 ∧
    generate_raw_c
        (lex_all_to_array ⟨[], 0, 0⟩ ([120, 61, 49] ++ [10, 9] ++ [34, 115, 34, 32, 121])).2
      = [120, 32, 61, 32, 49, 32] ++ [34, 115, 34, 32, 121, 32] :=
  ⟨⟨by decide, by decide, by decide, by decide⟩,
    (whitespace_concat_homomorphism [120, 61, 49] [34, 115, 34, 32, 121] [10, 9] (by decide)
      (by decide) (by decide) (by decide) ⟨[], 0, 0⟩).1,
    (whitespace_concat_homomorphism [120, 61, 49] [34, 115, 34, 32, 121] [10, 9] (by decide)
      (by decide) (by decide) (by decide) ⟨[], 0, 0⟩).2.trans rfl⟩

/-! ### The operator branches of the token sequence -/

theorem lexS_op (c : Nat) (cs : List Nat) (line : Nat) (s : List Nat) (hc0 : c ≠ 0)
    (h1 : isspace c = false) (h2 : isdigit c = false) (h3 : c ≠ 34)
    (h4 : is_ident_start c = false) (hm : match_symbol symbols ⟨c :: cs, 0, 0⟩ = some s) :
    lexS (c :: cs) line = ⟨TK_OP, s, line⟩ :: lexS ((c :: cs).drop s.length) line := by
  have hstep : step_view (c :: cs) line = (s.length, line, some ⟨TK_OP, s, line⟩) := by
    unfold step_view
    simp only [List.headD_cons, h1, h2, if_neg h3, h4, hm]
    simp
  rw [lexS_step _ _ (by simpa using hc0), hstep]
  rfl

theorem lexS_fallback (c : Nat) (cs : List Nat) (line : Nat) (hc0 : c ≠ 0)
    (h1 : isspace c = false) (h2 : isdigit c = false) (h3 : c ≠ 34)
    (h4 : is_ident_start c = false) (hm : match_symbol symbols ⟨c :: cs, 0, 0⟩ = none)
    (h5 : c ∈ punct_set) :
    lexS (c :: cs) line = ⟨TK_OP, [c], line⟩ :: lexS cs line := by
  have hstep : step_view (c :: cs) line = (1, line, some ⟨TK_OP, [c], line⟩) := by
    unfold step_view
    simp only [List.headD_cons, h1, h2, if_neg h3, h4, hm, if_pos h5]
    simp
  rw [lexS_step _ _ (by simpa using hc0), hstep]
  rfl

/-! ### The text of a number or of a string literal lexes to itself -/

theorem number_len_digits (d r : List Nat) (hd : ∀ c ∈ d, isdigit c = true)
    (h1 : isdigit (r.headD 0) = false) (h2 : r.headD 0 ≠ 46) :
    number_len (d ++ r) = d.length := by
  have ht : (d ++ r).takeWhile isdigit = d := by
    rw [List.takeWhile_append_of_pos hd]
    cases r with
    | nil => simp
    | cons c cs =>
      simp only [List.headD_cons] at h1
      simp [List.takeWhile, h1]
  unfold number_len
  simp only [ht, List.drop_left' rfl, if_neg h2]

theorem isdigit_headD_dropWhile (l : List Nat) :
    isdigit ((l.dropWhile isdigit).headD 0) = false := by
  have := List.head?_dropWhile_not isdigit l
  cases h : l.dropWhile isdigit with
  | nil => rfl
  | cons c cs =>
    rw [h] at this
    simpa using this

/-- The bytes `read_number` takes are a number that `read_number` takes whole. -/
theorem number_len_take (r : List Nat) :
    number_len (r.take (number_len r)) = number_len r ∧ number_len r ≤ r.length := by
  refine ⟨?_, number_len_le r⟩
  have hd1 : ∀ c ∈ r.takeWhile isdigit, isdigit c = true :=
    fun c hc => List.mem_takeWhile_imp hc
  have hsplit : r.takeWhile isdigit ++ r.dropWhile isdigit = r :=
    List.takeWhile_append_dropWhile isdigit r
  have hnd := isdigit_headD_dropWhile r
  by_cases h46 : (r.dropWhile isdigit).headD 0 = 46
  · cases hr1 : r.dropWhile isdigit with
    | nil => rw [hr1] at h46; exact absurd h46 (by decide)
    | cons y r2 =>
      rw [hr1] at h46 hsplit
      simp only [List.headD_cons] at h46
      subst h46
      have hd2 : ∀ c ∈ r2.takeWhile isdigit, isdigit c = true :=
        fun c hc => List.mem_takeWhile_imp hc
      have hsplit2 : r2.takeWhile isdigit ++ r2.dropWhile isdigit = r2 :=
        List.takeWhile_append_dropWhile isdigit r2
      have hform : r = r.takeWhile isdigit ++ [46] ++ r2.takeWhile isdigit
          ++ r2.dropWhile isdigit := by
        rw [List.append_assoc, hsplit2]
        simpa using hsplit.symm
      have hlen := number_len_shape (r.takeWhile isdigit) (r2.takeWhile isdigit)
        (r2.dropWhile isdigit) hd1 hd2 (isdigit_headD_dropWhile r2)
      have hlen0 := number_len_shape (r.takeWhile isdigit) (r2.takeWhile isdigit) [] hd1 hd2
        (by decide)
      rw [List.append_nil] at hlen0
      rw [← hform] at hlen
      have htake : r.take (number_len r)
          = r.takeWhile isdigit ++ [46] ++ r2.takeWhile isdigit := by
        rw [hlen]
        conv_lhs => arg 2; rw [hform]
        exact List.take_left' rfl
      rw [htake, hlen0, hlen]
  · have hlen : number_len r = (r.takeWhile isdigit).length := by
      conv_lhs => rw [← hsplit]
      exact number_len_digits _ _ hd1 hnd h46
    have hlen0 : number_len (r.takeWhile isdigit) = (r.takeWhile isdigit).length := by
      have := number_len_digits (r.takeWhile isdigit) [] hd1 (by decide) (by decide)
      rwa [List.append_nil] at this
    rw [hlen, take_length_takeWhile, hlen0]

theorem getLast?_drop_ne (r : List Nat) (k v : Nat) (h : r.getLast? ≠ some v) :
    (r.drop k).getLast? ≠ some v := by
  rw [List.getLast?_drop]
  split_ifs
  · simp
  · exact h

/-- The body `read_string` takes from an input without NUL that does not end with a
backslash is taken whole again when a `"` follows it. -/
theorem string_body_len_take : ∀ (n : Nat) (r : List Nat), r.length ≤ n →
    0 ∉ r → r.getLast? ≠ some 92 → ∀ t : List Nat,
    string_body_len (r.take (string_body_len r) ++ 34 :: t) = string_body_len r := by
  intro n
  induction n with
  | zero =>
    intro r hr _ _ t
    have : r = [] := List.length_eq_zero.mp (Nat.le_zero.mp hr)
    subst this
    cases t <;> simp [string_body_len]
  | succ n ih =>
    intro r hr h0 hl t
    have hq : string_body_len (34 :: t) = 0 := by
      cases t <;> simp [string_body_len]
    match r, hr, h0, hl with
    | [], _, _, _ => simpa [string_body_len] using hq
    | [c], _, h0, hl =>
      have hc0 : c ≠ 0 := by rintro rfl; simp at h0
      have hc92 : c ≠ 92 := by rintro rfl; simp at hl
      by_cases hc34 : c = 34
      · subst hc34
        simpa [string_body_len] using hq
      · have h1 : string_body_len [c] = 1 := by simp [string_body_len, hc0, hc34]
        rw [h1]
        simp only [List.take_succ_cons, List.take_zero, List.singleton_append]
        rw [string_body_len_plain c _ hc0 hc34 hc92, hq]
    | c :: d :: ds, hr, h0, hl =>
      have hc0 : c ≠ 0 := by rintro rfl; simp at h0
      have hd0 : d ≠ 0 := by rintro rfl; simp at h0
      have h0d : 0 ∉ d :: ds := fun h => h0 (List.mem_cons_of_mem _ h)
      have h0ds : 0 ∉ ds := fun h => h0d (List.mem_cons_of_mem _ h)
      have hld : (d :: ds).getLast? ≠ some 92 := by simpa using hl
      have hlds : ds.getLast? ≠ some 92 := by
        have := getLast?_drop_ne (d :: ds) 1 92 hld
        simpa using this
      by_cases hc34 : c = 34
      · subst hc34
        simpa [string_body_len] using hq
      · by_cases hc92 : c = 92
        · subst hc92
          have h1 : string_body_len (92 :: d :: ds) = 2 + string_body_len ds :=
            string_body_len_escape d ds hd0
          rw [h1, Nat.add_comm 2]
          simp only [List.take_succ_cons, List.cons_append]
          rw [string_body_len_escape d _ hd0, ih ds (by simp at hr ⊢; omega) h0ds hlds t]
          omega
        · have h1 : string_body_len (c :: d :: ds) = 1 + string_body_len (d :: ds) :=
            string_body_len_plain c _ hc0 hc34 hc92
          rw [h1, Nat.add_comm 1]
          simp only [List.take_succ_cons, List.cons_append]
          rw [string_body_len_plain c _ hc0 hc34 hc92,
            ih (d :: ds) (by simp at hr ⊢; omega) h0d hld t]
          omega

/-! ### Lexing the generated text of one token -/

theorem symbols_class : ∀ s ∈ symbols,
    s.headD 0 ≠ 0 ∧ isspace (s.headD 0) = false ∧ isdigit (s.headD 0) = false ∧
      s.headD 0 ≠ 34 ∧ is_ident_start (s.headD 0) = false ∧
      match_symbol symbols ⟨s, 0, 0⟩ = some s := by
  decide

theorem bracket_class : ∀ c, c = 91 ∨ c = 93 →
    c ≠ 0 ∧ isspace c = false ∧ isdigit c = false ∧ c ≠ 34 ∧ is_ident_start c = false ∧
      c ∈ punct_set ∧ ∀ s ∈ symbols, s.headD 0 ≠ c := by
  intro c hc
  rcases hc with rfl | rfl <;> decide

theorem separator_space : separator 32 = true := by decide

theorem relex_number (r rest : List Nat) (line : Nat) (hd : isdigit (r.headD 0) = true) :
    lexS (r.take (number_len r) ++ 32 :: rest) line
      = ⟨TK_NUMBER, r.take (number_len r), line⟩ :: lexS rest line := by
  obtain ⟨hfix, hle⟩ := number_len_take r
  match r, hd, hfix, hle with
  | [], hd, _, _ => exact absurd hd (by decide)
  | c :: cs, hd, hfix, hle =>
    simp only [List.headD_cons] at hd
    have hpos := (number_len_bounds c cs hd).1
    obtain ⟨k, hk⟩ : ∃ k, number_len (c :: cs) = k + 1 := ⟨_, (Nat.sub_add_cancel hpos).symm⟩
    have hloc := number_len_local ((c :: cs).take (number_len (c :: cs))) 32 rest
      (by decide) (by decide)
    have hlen : ((c :: cs).take (number_len (c :: cs))).length = number_len (c :: cs) :=
      List.length_take_of_le hle
    rw [hfix] at hloc
    generalize hA : (c :: cs).take (number_len (c :: cs)) = A at hloc hlen ⊢
    have hA1 : A = c :: cs.take k := by rw [← hA, hk]; rfl
    rw [hA1] at hloc hlen ⊢
    rw [List.cons_append, lexS_number c _ line hd]
    rw [← List.cons_append, hloc, ← hlen, List.take_left' rfl, List.drop_left' rfl,
      lexS_space 32 rest line (by decide)]
    rfl

theorem relex_string (r rest : List Nat) (line : Nat) (h0 : 0 ∉ r)
    (hl : r.getLast? ≠ some 92) :
    lexS ([34] ++ r.take (string_body_len r) ++ [34] ++ 32 :: rest) line
      = ⟨TK_STRING, r.take (string_body_len r), line⟩ :: lexS rest line := by
  have hfix := string_body_len_take r.length r (Nat.le_refl _) h0 hl (32 :: rest)
  have hlen : (r.take (string_body_len r)).length = string_body_len r :=
    List.length_take_of_le (string_body_len_le r.length r (Nat.le_refl _))
  generalize r.take (string_body_len r) = A at hfix hlen ⊢
  have e : [34] ++ A ++ [34] ++ 32 :: rest = 34 :: (A ++ 34 :: 32 :: rest) := by simp
  rw [e, lexS_string, hfix, ← hlen, List.take_left' rfl, List.drop_left' rfl]
  simp only [List.headD_cons, if_true]
  have hd : (A ++ 34 :: 32 :: rest).drop (A.length + 1) = 32 :: rest := by
    rw [← List.drop_drop, List.drop_left' rfl]; rfl
  rw [hd, lexS_space 32 rest line (by decide)]
  rfl

theorem relex_ident (r rest : List Nat) (line : Nat)
    (hs : is_ident_start (r.headD 0) = true)
    (hnone : try_keyword_map_exact (r.takeWhile is_ident_char) = none) :
    lexS (r.takeWhile is_ident_char ++ 32 :: rest) line
      = ⟨TK_IDENT, r.takeWhile is_ident_char, line⟩ :: lexS rest line := by
  match r, hs, hnone with
  | [], hs, _ => exact absurd hs (by decide)
  | c :: cs, hs, hnone =>
    simp only [List.headD_cons] at hs
    have hall : ∀ b ∈ (c :: cs).takeWhile is_ident_char, is_ident_char b = true :=
      fun b hb => List.mem_takeWhile_imp hb
    have htw : (c :: cs).takeWhile is_ident_char = c :: cs.takeWhile is_ident_char := by
      simp [List.takeWhile, is_ident_char_of_start hs]
    generalize hW : (c :: cs).takeWhile is_ident_char = W at hall hnone htw ⊢
    have h1 : (W ++ 32 :: rest).takeWhile is_ident_char = W := by
      rw [takeWhile_append_stop is_ident_char W 32 rest (by decide)]
      exact List.takeWhile_eq_self_iff.mpr hall
    have h2 : (W ++ 32 :: rest).dropWhile is_ident_char = 32 :: rest := by
      rw [← drop_length_takeWhile, h1, List.drop_left' rfl]
    have hl := lexS_ident c (cs.takeWhile is_ident_char ++ 32 :: rest) line hs
    rw [← List.cons_append, ← htw, h1, h2, hnone] at hl
    rw [hl, lexS_space 32 rest line (by decide)]
    rfl

theorem relex_symbol (s rest : List Nat) (line : Nat) (hs : s ∈ symbols) :
    lexS (s ++ 32 :: rest) line = ⟨TK_OP, s, line⟩ :: lexS rest line := by
  obtain ⟨c0, c1, c2, c3, c4, c5⟩ := symbols_class s hs
  have hloc := match_symbol_local s 32 rest symbols
    (fun s' hs' => ⟨symbols_nul_free s' hs', (separator_class separator_space).2.2.2 s' hs'⟩)
  rw [c5] at hloc
  match s, c0, c1, c2, c3, c4, hloc with
  | [], c0, _, _, _, _, _ => exact absurd rfl c0
  | c :: cs, c0, c1, c2, c3, c4, hloc =>
    simp only [List.headD_cons] at c0 c1 c2 c3 c4
    rw [List.cons_append] at hloc ⊢
    rw [lexS_op c _ line (c :: cs) c0 c1 c2 c3 c4 hloc, ← List.cons_append,
      List.drop_left' rfl, lexS_space 32 rest line (by decide)]
    rfl

theorem relex_bracket (c : Nat) (rest : List Nat) (line : Nat) (hc : c = 91 ∨ c = 93) :
    lexS ([c] ++ 32 :: rest) line = ⟨TK_OP, [c], line⟩ :: lexS rest line := by
  obtain ⟨c0, c1, c2, c3, c4, c5, c6⟩ := bracket_class c hc
  have hm : match_symbol symbols ⟨c :: 32 :: rest, 0, 0⟩ = none :=
    match_symbol_none_of_head c _ symbols
      (fun s hs => ⟨symbols_nul_free s hs, symbols_nonempty s hs, c6 s hs⟩)
  rw [List.singleton_append, lexS_fallback c _ line c0 c1 c2 c3 c4 hm c5,
    lexS_space 32 rest line (by decide)]
  rfl

/-- A token pushed by an iteration on an unread rest without NUL that does not end with a
backslash, if it is not a keyword: the text generated for it, whatever follows, lexes to a token
of the same kind and text, and lexing goes on after it. -/
theorem relex_of_step (r : List Nat) (line0 : Nat) (t : Token) (h0 : 0 ∉ r)
    (hl : r.getLast? ≠ some 92) (ht : (step_view r line0).2.2 = some t)
    (hkw : t.type ≠ TK_KW) (rest : List Nat) (line : Nat) :
    lexS (fragment t ++ rest) line = ⟨t.type, t.lexeme, line⟩ :: lexS rest line := by
  rcases step_view_token_cases ht with ⟨hd, rfl⟩ | ⟨_, rfl⟩ | ⟨_, m, _, rfl⟩ |
    ⟨hs, hnone, rfl⟩ | ⟨s, hs, rfl⟩ | ⟨hn, hp, rfl⟩
  · have := relex_number r rest line hd
    simpa [fragment] using this
  · have := relex_string (r.drop 1) rest line (fun h => h0 (List.mem_of_mem_drop h))
      (getLast?_drop_ne r 1 92 hl)
    simpa [fragment] using this
  · exact absurd rfl hkw
  · have := relex_ident r rest line hs hnone
    simpa [fragment] using this
  · have := relex_symbol s rest line (match_symbol_some hs).1
    simpa [fragment] using this
  · have := relex_bracket (r.headD 0) rest line (fallback_only_brackets hn hp)
    simpa [fragment] using this

/-! ### Lexing the generated output -/

theorem generate_raw_c_fragments (body : TokenArray) (hb : ∀ t ∈ body, t.type ≠ TK_EOF) :
    generate_raw_c body = (body.map fragment).flatten := by
  induction body with
  | nil => rfl
  | cons t body ih =>
    have ht := hb t (List.mem_cons_self _ _)
    have := ih (fun t' ht' => hb t' (List.mem_cons_of_mem _ ht'))
    simp only [generate_raw_c, if_neg ht, this, List.map_cons, List.flatten_cons, fragment,
      List.append_assoc]

theorem kinds_texts_relex (body : TokenArray)
    (h : ∀ t ∈ body, ∀ (rest : List Nat) (line : Nat),
      lexS (fragment t ++ rest) line = ⟨t.type, t.lexeme, line⟩ :: lexS rest line) :
    ∀ (rest : List Nat) (line : Nat),
      kinds_texts (lexS ((body.map fragment).flatten ++ rest) line)
        = kinds_texts body ++ kinds_texts (lexS rest line) := by
  induction body with
  | nil => intro rest line; rfl
  | cons t body ih =>
    intro rest line
    have ih1 := ih (fun t' ht' => h t' (List.mem_cons_of_mem _ ht')) rest line
    rw [List.map_cons, List.flatten_cons, List.append_assoc,
      h t (List.mem_cons_self _ _)]
    simp only [kinds_texts, List.map_cons, List.cons_append, List.cons.injEq, true_and]
      at ih1 ⊢
    exact ih1

/-- C20 (canonical output is a fixed point): for an input `x` (a C string, so without NUL)
that does not end with a backslash and whose tokens include no `TK_KW`, lexing the output
generated for `x` gives the kinds and texts of the tokens of `x`, and generating again gives
the same output. -/
theorem canonical_output_fixed_point (x : List Nat) (g : Lexer) (h0 : 0 ∉ x)
    (hlast : x.getLast? ≠ some 92)
    (hkw : ∀ t ∈ (lex_all_to_array g x).2, t.type ≠ TK_KW) :
    kinds_texts (lex_all_to_array g (generate_raw_c (lex_all_to_array g x).2)).2
      = kinds_texts (lex_all_to_array g x).2 ∧
    generate_raw_c (lex_all_to_array g (generate_raw_c (lex_all_to_array g x).2)).2
      = generate_raw_c (lex_all_to_array g x).2 := by
  have hkinds : kinds_texts (lex_all_to_array g (generate_raw_c (lex_all_to_array g x).2)).2
      = kinds_texts (lex_all_to_array g x).2 := by
    simp only [lex_all_to_array_eq] at hkw ⊢
    obtain ⟨body, line1, hb, hne⟩ := lex_view_shape x.length x 1
    have hshape : lexS x 1 = body ++ [eof_token line1] := hb
    have hrelex : ∀ t ∈ lexS x 1, t.type ≠ TK_EOF → t.type ≠ TK_KW →
        ∀ (rest : List Nat) (line : Nat),
          lexS (fragment t ++ rest) line = ⟨t.type, t.lexeme, line⟩ :: lexS rest line := by
      apply lex_view_forall_of (fun r => 0 ∉ r ∧ r.getLast? ≠ some 92)
      · intro r k hq
        exact ⟨fun h => hq.1 (List.mem_of_mem_drop h), getLast?_drop_ne r k 92 hq.2⟩
      · intro r line0 t hq ht _ hk
        exact relex_of_step r line0 t hq.1 hq.2 ht hk
      · intro line hne; exact absurd rfl hne
      · exact ⟨h0, hlast⟩
    have hbody : ∀ t ∈ body, ∀ (rest : List Nat) (line : Nat),
        lexS (fragment t ++ rest) line = ⟨t.type, t.lexeme, line⟩ :: lexS rest line := by
      intro t ht
      have hmem : t ∈ lexS x 1 := by rw [hshape]; exact List.mem_append_left _ ht
      exact hrelex t hmem (hne t ht) (hkw t hmem)
    rw [hshape, generate_raw_c_body body line1 hne, generate_raw_c_fragments body hne]
    have := kinds_texts_relex body hbody [] 1
    rw [List.append_nil] at this
    rw [this, kinds_texts_append]
    rfl
  exact ⟨hkinds, generate_raw_c_congr _ _ hkinds⟩

/-- Witness of C20 on the input `x1 = "a\"b" 1.5 [`, which has an identifier, operators from
the table and from the fallback, a string literal with an escape and a number. -/
theorem canonical_output_fixed_point_witness :
    (0 ∉ [120, 49, 32, 61, 32, 34, 97, 92, 34, 98, 34, 32, 49, 46, 53, 32, 91] ∧
      ([120, 49, 32, 61, 32, 34, 97, 92, 34, 98, 34, 32, 49, 46, 53, 32, 91] : List Nat).getLast?
        ≠ some 92 ∧
      ∀ t ∈ (lex_all_to_array ⟨[], 0, 0⟩
          [120, 49, 32, 61, 32, 34, 97, 92, 34, 98, 34, 32, 49, 46, 53, 32, 91]).2,
        t.type ≠ TK_KW) ∧
    kinds_texts (lex_all_to_array ⟨[], 0, 0⟩ (generate_raw_c (lex_all_to_array ⟨[], 0, 0⟩
        [120, 49, 32, 61, 32, 34, 97, 92, 34, 98, 34, 32, 49, 46, 53, 32, 91]).2)).2
      = kinds_texts (lex_all_to_array ⟨[], 0, 0⟩
        [120, 49, 32, 61, 32, 34, 97, 92, 34, 98, 34, 32, 49, 46, 53, 32, 91]).2 ∧
    generate_raw_c (lex_all_to_array ⟨[], 0, 0⟩ (generate_raw_c (lex_all_to_array ⟨[], 0, 0⟩
        [120, 49, 32, 61, 32, 34, 97, 92, 34, 98, 34, 32, 49, 46, 53, 32, 91]).2)).2
      = generate_raw_c (lex_all_to_array ⟨[], 0, 0⟩
        [120, 49, 32, 61, 32, 34, 97, 92, 34, 98, 34, 32, 49, 46, 53, 32, 91]).2 :=
  ⟨⟨by decide, by decide, by decide⟩,
    canonical_output_fixed_point
      [120, 49, 32, 61, 32, 34, 97, 92, 34, 98, 34, 32, 49, 46, 53, 32, 91] ⟨[], 0, 0⟩
      (by decide) (by decide) (by decide)⟩

end Hormuz
